import Mathlib

/-!
Verification of the element-copier browser extension (content script).

This file gives a shallow embedding of the core algorithms of the content
script and proves or refutes the specified properties about them:

* the area-selection geometry resolver (getElementsInArea), over a model of
  the DOM as a finite tree of elements with rational bounding rectangles;
* the selection-controller event handlers (hover, click, area mouse-up,
  deactivation) as a state machine over marker-class bookkeeping;
* the Markdown conversion pipeline (convertToMarkdown / processAndCopy) with
  the third-party converter abstracted as an oracle that can fail;
* the Markdown table normalizer (normalizeMarkdownTables) and the link
  extractor (extractLinksFromMarkdown), over strings modelled as lists of
  characters with JavaScript string primitives (split, trim, includes)
  re-implemented faithfully.

JavaScript numbers are idealized as rationals; DOM element references are
modelled as records carrying an abstract reference tag and the element's
bounding rectangle.
-/

namespace ElementCopier

/-! ## Geometry model: points, rectangles, DOM tree -/

/-- A point in CSS pixel coordinates (clientX / clientY). -/
structure Pt where
  x : ℚ
  y : ℚ
deriving DecidableEq, Repr

/-- A bounding rectangle as returned by getBoundingClientRect. -/
structure Rect where
  left : ℚ
  top : ℚ
  width : ℚ
  height : ℚ
deriving DecidableEq, Repr

/-- A DOM element reference: an abstract reference tag plus the element's
bounding rectangle.  Two elements are the same element exactly when the
whole record coincides; trees used in the theorems carry pairwise distinct
references, so record equality models JavaScript reference equality. -/
structure Elem where
  ref : ℕ
  rect : Rect
deriving DecidableEq, Repr

/-- The DOM subtree below (and including) one element. -/
inductive DomTree where
  | node (val : Elem) (kids : List DomTree)

/-- The element at the root of a subtree. -/
def DomTree.val : DomTree → Elem
  | .node v _ => v

/-- The direct child subtrees of a subtree. -/
def DomTree.kids : DomTree → List DomTree
  | .node _ ks => ks

mutual

/-- All subtrees of a tree, root first, in document order (depth-first). -/
def subtrees : DomTree → List DomTree
  | .node v ks => .node v ks :: subtreesOf ks

/-- All subtrees of a forest, in document order. -/
def subtreesOf : List DomTree → List DomTree
  | [] => []
  | t :: ts => subtrees t ++ subtreesOf ts

end

/-- All elements of a subtree, root first, in document order. -/
def subElems (t : DomTree) : List Elem :=
  (subtrees t).map DomTree.val

/-- The candidate elements enumerated by document.querySelectorAll with the
selector for all elements below body: every proper descendant of the body
node, in document order. -/
def bodyElems (body : DomTree) : List Elem :=
  (subtreesOf body.kids).map DomTree.val

/-- The JavaScript call parent.contains(el): el is parent itself or a
descendant of parent.  The containing document is passed explicitly so that
the element record can stay a plain reference. -/
def containsElem (body : DomTree) (p e : Elem) : Bool :=
  (subtrees body).any fun t => decide (t.val = p) && decide (e ∈ subElems t)

/-- Locate the subtree rooted at a given element reference. -/
def findNode (body : DomTree) (p : Elem) : Option DomTree :=
  (subtrees body).find? fun t => decide (t.val = p)

/-- The JavaScript property parent.children, as element references. -/
def childrenElems (body : DomTree) (p : Elem) : List Elem :=
  match findNode body p with
  | some t => t.kids.map DomTree.val
  | none => []

/-! ## getElementsInArea (content.js lines 1194-1274) -/

/-- Horizontal start of the normalized selection rectangle. -/
def selLeft (s e : Pt) : ℚ := min s.x e.x

/-- Vertical start of the normalized selection rectangle. -/
def selTop (s e : Pt) : ℚ := min s.y e.y

/-- Horizontal end of the normalized selection rectangle. -/
def selRight (s e : Pt) : ℚ := max s.x e.x

/-- Vertical end of the normalized selection rectangle. -/
def selBottom (s e : Pt) : ℚ := max s.y e.y

/-- selectionWidth * selectionHeight from the source. -/
def selArea (s e : Pt) : ℚ :=
  (selRight s e - selLeft s e) * (selBottom s e - selTop s e)

/-- rect.width * rect.height. -/
def rectArea (r : Rect) : ℚ := r.width * r.height

/-- rect.left + rect.width / 2. -/
def centerX (r : Rect) : ℚ := r.left + r.width / 2

/-- rect.top + rect.height / 2. -/
def centerY (r : Rect) : ℚ := r.top + r.height / 2

/-- The first pass of getElementsInArea: keep a candidate unless its area
exceeds three times the selection area, and keep it only when its center
point lies within the selection rectangle. -/
def acceptedElems (body : DomTree) (s e : Pt) : List Elem :=
  (bodyElems body).filter fun el =>
    !decide (rectArea el.rect > selArea s e * 3) &&
      (decide (centerX el.rect ≥ selLeft s e) && decide (centerX el.rect ≤ selRight s e) &&
        decide (centerY el.rect ≥ selTop s e) && decide (centerY el.rect ≤ selBottom s e))

/-- The visible direct children of a parent: direct children with non-zero
width and height. -/
def visibleChildren (body : DomTree) (p : Elem) : List Elem :=
  (childrenElems body p).filter fun c =>
    decide (c.rect.width > 0) && decide (c.rect.height > 0)

/-- The accepted proper descendants of a parent: accepted elements other than
the parent that the parent contains (the descendants list computed inside the
absorption loop of getElementsInArea). -/
def descendantsOf (body : DomTree) (elements : List Elem) (parent : Elem) : List Elem :=
  elements.filter fun el => !decide (el = parent) && containsElem body parent el

/-- The absorption condition tested inside the loop of getElementsInArea: the
parent has at least one visible direct child and every visible direct child
is in the accepted list. -/
def absorbCond (body : DomTree) (elements : List Elem) (parent : Elem) : Bool :=
  (visibleChildren body parent).length > 0 &&
    decide (((visibleChildren body parent).filter fun child =>
      decide (child ∈ elements)).length = (visibleChildren body parent).length)

/-- One iteration of the parent-absorption pass of getElementsInArea: for the
given parent, when it has accepted descendants and all of its visible direct
children are accepted, splice every accepted descendant out of the
accumulator (removing the first occurrence, as indexOf/splice do). -/
def absorbStep (body : DomTree) (elements : List Elem) (acc : List Elem)
    (parent : Elem) : List Elem :=
  if (descendantsOf body elements parent).length > 0 then
    if absorbCond body elements parent then
      (descendantsOf body elements parent).foldl (fun a child => a.erase child) acc
    else acc
  else acc

/-- getElementsInArea: geometric filter followed by the parent-absorption
pass over the frozen accepted list (the loop iterates over the accepted list
itself, starting from a copy of it). -/
def getElementsInArea (body : DomTree) (s e : Pt) : List Elem :=
  (acceptedElems body s e).foldl
    (absorbStep body (acceptedElems body s e)) (acceptedElems body s e)

/-! ## Characterization of the absorption pass -/

/-- An element el is spliced out of the result by the iteration for parent
exactly when el is an accepted proper descendant of parent and parent
satisfies the absorption condition. -/
def removedBy (body : DomTree) (elements : List Elem) (parent el : Elem) : Bool :=
  decide (el ∈ descendantsOf body elements parent) && absorbCond body elements parent

theorem absorbCond_eq_true_iff (body : DomTree) (elements : List Elem) (parent : Elem) :
    absorbCond body elements parent = true ↔
      visibleChildren body parent ≠ [] ∧
        ∀ c ∈ visibleChildren body parent, c ∈ elements := by
  unfold absorbCond
  rw [Bool.and_eq_true, decide_eq_true_eq, decide_eq_true_eq]
  constructor
  · rintro ⟨h1, h2⟩
    refine ⟨List.ne_nil_of_length_pos h1, fun c hc => ?_⟩
    have heq := (List.filter_sublist _).eq_of_length h2
    have hc' : c ∈ (visibleChildren body parent).filter
        fun child => decide (child ∈ elements) := by rw [heq]; exact hc
    simpa using (List.mem_filter.mp hc').2
  · rintro ⟨h1, h2⟩
    refine ⟨List.length_pos.mpr h1, ?_⟩
    have heq : (visibleChildren body parent).filter
        (fun child => decide (child ∈ elements)) = visibleChildren body parent := by
      rw [List.filter_eq_self]
      intro a ha
      simpa using h2 a ha
    rw [heq]

theorem foldl_erase_eq_filter (ds : List Elem) :
    ∀ acc : List Elem, acc.Nodup →
      ds.foldl (fun a child => a.erase child) acc =
        acc.filter fun x => !decide (x ∈ ds) := by
  induction ds with
  | nil => intro acc _; simp
  | cons d ds ih =>
    intro acc hacc
    have herase : acc.erase d = acc.filter fun x => !decide (x = d) := by
      rw [List.Nodup.erase_eq_filter hacc]
      apply List.filter_congr
      intro x _
      by_cases hxd : x = d <;> simp [hxd]
    calc (d :: ds).foldl (fun a child => a.erase child) acc
        = ds.foldl (fun a child => a.erase child) (acc.erase d) := by simp [List.foldl_cons]
      _ = (acc.erase d).filter (fun x => !decide (x ∈ ds)) := ih _ (hacc.erase d)
      _ = acc.filter fun x => !decide (x ∈ d :: ds) := by
          rw [herase, List.filter_filter]
          apply List.filter_congr
          intro x _
          by_cases hxd : x = d <;> by_cases hxds : x ∈ ds <;>
            simp [hxd, hxds]

theorem absorbStep_eq_filter (body : DomTree) (elements acc : List Elem) (parent : Elem)
    (hacc : acc.Nodup) :
    absorbStep body elements acc parent =
      acc.filter fun el => !removedBy body elements parent el := by
  unfold absorbStep
  by_cases hlen : (descendantsOf body elements parent).length > 0
  · rw [if_pos hlen]
    by_cases hcond : absorbCond body elements parent = true
    · rw [if_pos hcond, foldl_erase_eq_filter _ acc hacc]
      apply List.filter_congr
      intro x _
      simp [removedBy, hcond]
    · rw [if_neg hcond]
      symm
      rw [List.filter_eq_self]
      intro a _
      simp only [Bool.not_eq_true', removedBy]
      simp [Bool.eq_false_iff.mpr hcond]
  · rw [if_neg hlen]
    have hnil : descendantsOf body elements parent = [] :=
      List.eq_nil_of_length_eq_zero (by omega)
    symm
    rw [List.filter_eq_self]
    intro a _
    simp [removedBy, hnil]

theorem foldl_absorbStep_eq_filter (body : DomTree) (elements : List Elem) (ps : List Elem) :
    ∀ acc : List Elem, acc.Nodup →
      ps.foldl (absorbStep body elements) acc =
        acc.filter fun el => ps.all fun p => !removedBy body elements p el := by
  induction ps with
  | nil => intro acc _; simp
  | cons p ps ih =>
    intro acc hacc
    rw [List.foldl_cons, absorbStep_eq_filter body elements acc p hacc,
      ih _ (hacc.filter _), List.filter_filter]
    apply List.filter_congr
    intro x _
    simp only [List.all_cons]
    by_cases h1 : removedBy body elements p x <;>
      by_cases h2 : (ps.all fun q => !removedBy body elements q x) = true <;>
        simp [h1, h2]

/-- Membership in the final result of getElementsInArea: an element survives
exactly when it is accepted and no accepted parent's iteration removes it. -/
theorem mem_getElementsInArea (body : DomTree) (s e : Pt)
    (hnd : (bodyElems body).Nodup) (el : Elem) :
    el ∈ getElementsInArea body s e ↔
      el ∈ acceptedElems body s e ∧
        ∀ p ∈ acceptedElems body s e,
          removedBy body (acceptedElems body s e) p el = false := by
  have hand : (acceptedElems body s e).Nodup := by
    unfold acceptedElems
    exact hnd.filter _
  unfold getElementsInArea
  rw [foldl_absorbStep_eq_filter body (acceptedElems body s e)
    (acceptedElems body s e) (acceptedElems body s e) hand, List.mem_filter]
  simp [List.all_eq_true, Bool.not_eq_true']

theorem foldl_erase_sublist (ds : List Elem) :
    ∀ acc : List Elem, List.Sublist (ds.foldl (fun a child => a.erase child) acc) acc := by
  induction ds with
  | nil => intro acc; exact List.Sublist.refl _
  | cons d ds ih =>
    intro acc
    exact (ih _).trans (List.erase_sublist _ _)

theorem absorbStep_sublist (body : DomTree) (elements acc : List Elem) (parent : Elem) :
    List.Sublist (absorbStep body elements acc parent) acc := by
  unfold absorbStep
  split
  · split
    · exact foldl_erase_sublist _ _
    · exact List.Sublist.refl _
  · exact List.Sublist.refl _

theorem getElementsInArea_sublist (body : DomTree) (s e : Pt) :
    List.Sublist (getElementsInArea body s e) (acceptedElems body s e) := by
  unfold getElementsInArea
  generalize acceptedElems body s e = elements
  suffices h : ∀ ps acc : List Elem, List.Sublist (ps.foldl (absorbStep body elements) acc) acc by
    exact h elements elements
  intro ps
  induction ps with
  | nil => intro acc; exact List.Sublist.refl _
  | cons p ps ih =>
    intro acc
    exact (ih _).trans (absorbStep_sublist body elements acc p)

theorem accepted_size_center (body : DomTree) (s e : Pt) (el : Elem)
    (hel : el ∈ acceptedElems body s e) :
    rectArea el.rect ≤ 3 * selArea s e ∧
      selLeft s e ≤ centerX el.rect ∧ centerX el.rect ≤ selRight s e ∧
      selTop s e ≤ centerY el.rect ∧ centerY el.rect ≤ selBottom s e := by
  unfold acceptedElems at hel
  have h := (List.mem_filter.mp hel).2
  rw [Bool.and_eq_true] at h
  obtain ⟨hA, hRest⟩ := h
  rw [Bool.and_eq_true] at hRest
  obtain ⟨hBCD, hE⟩ := hRest
  rw [Bool.and_eq_true] at hBCD
  obtain ⟨hBC, hD⟩ := hBCD
  rw [Bool.and_eq_true] at hBC
  obtain ⟨hB, hC⟩ := hBC
  have h1 : ¬(rectArea el.rect > selArea s e * 3) :=
    of_decide_eq_false (by simpa using hA)
  refine ⟨by rw [not_lt] at h1; linarith, of_decide_eq_true hB, of_decide_eq_true hC,
    of_decide_eq_true hD, of_decide_eq_true hE⟩

/-- C2: for every drag rectangle and candidate DOM tree, every element
returned by getElementsInArea passed the size filter (bounding area at most
three times the selection area) and has its center point inside the
normalized selection rectangle. -/
theorem getElementsInArea_size_filter (body : DomTree) (s e : Pt) (el : Elem)
    (hel : el ∈ getElementsInArea body s e) :
    rectArea el.rect ≤ 3 * selArea s e ∧
      selLeft s e ≤ centerX el.rect ∧ centerX el.rect ≤ selRight s e ∧
      selTop s e ≤ centerY el.rect ∧ centerY el.rect ≤ selBottom s e :=
  accepted_size_center body s e el ((getElementsInArea_sublist body s e).subset hel)

/-! ## Concrete fixtures for the geometry claims -/

/-- A simple page: a body with one 40x40 element at (20, 20). -/
def elemW : Elem := ⟨1, ⟨20, 20, 40, 40⟩⟩

/-- Body node of the simple page. -/
def bodyW : DomTree := .node ⟨0, ⟨0, 0, 200, 200⟩⟩ [.node elemW []]

/-- Drag start used by the witnesses. -/
def sW : Pt := ⟨0, 0⟩

/-- Drag end used by the witnesses. -/
def eW : Pt := ⟨100, 100⟩

theorem bodyElems_bodyW : bodyElems bodyW = [elemW] := by
  simp [bodyElems, bodyW, subtreesOf, subtrees, DomTree.kids, DomTree.val]

theorem accepted_bodyW : acceptedElems bodyW sW eW = [elemW] := by
  rw [acceptedElems, bodyElems_bodyW]
  norm_num [elemW, sW, eW, selLeft, selTop, selRight, selBottom, selArea,
    rectArea, centerX, centerY, min_def, max_def, List.filter]

theorem result_bodyW : getElementsInArea bodyW sW eW = [elemW] := by
  rw [getElementsInArea, accepted_bodyW]
  simp [List.foldl, absorbStep, descendantsOf, List.filter]

theorem getElementsInArea_size_filter_witness :
    elemW ∈ getElementsInArea bodyW sW eW ∧
      rectArea elemW.rect ≤ 3 * selArea sW eW ∧
      selLeft sW eW ≤ centerX elemW.rect ∧ centerX elemW.rect ≤ selRight sW eW ∧
      selTop sW eW ≤ centerY elemW.rect ∧ centerY elemW.rect ≤ selBottom sW eW := by
  have hmem : elemW ∈ getElementsInArea bodyW sW eW := by
    rw [result_bodyW]; exact List.mem_singleton.mpr rfl
  exact ⟨hmem, getElementsInArea_size_filter bodyW sW eW elemW hmem⟩

/-! ## C1: parent absorption -/

/-- Grandparent element of the nested-absorption page. -/
def gElem : Elem := ⟨1, ⟨10, 10, 80, 80⟩⟩

/-- Middle parent element of the nested-absorption page. -/
def pElem : Elem := ⟨2, ⟨20, 20, 40, 40⟩⟩

/-- Child element of the nested-absorption page. -/
def cElem : Elem := ⟨3, ⟨25, 25, 10, 10⟩⟩

/-- A page with a three-deep chain of accepted elements below the body. -/
def bodyC1 : DomTree :=
  .node ⟨0, ⟨0, 0, 800, 600⟩⟩ [.node gElem [.node pElem [.node cElem []]]]

theorem bodyElems_bodyC1 : bodyElems bodyC1 = [gElem, pElem, cElem] := by
  simp [bodyElems, bodyC1, subtreesOf, subtrees, DomTree.kids, DomTree.val]

theorem accepted_bodyC1 : acceptedElems bodyC1 sW eW = [gElem, pElem, cElem] := by
  rw [acceptedElems, bodyElems_bodyC1]
  norm_num [gElem, pElem, cElem, sW, eW, selLeft, selTop, selRight, selBottom,
    selArea, rectArea, centerX, centerY, min_def, max_def, List.filter]

theorem visibleChildren_pElem : visibleChildren bodyC1 pElem = [cElem] := by
  norm_num [visibleChildren, childrenElems, findNode, bodyC1, subtrees, subtreesOf,
    DomTree.kids, DomTree.val, gElem, pElem, cElem, List.filter, List.find?]

theorem result_bodyC1 : getElementsInArea bodyC1 sW eW = [gElem] := by
  rw [getElementsInArea, accepted_bodyC1]
  norm_num [List.foldl, absorbStep, descendantsOf, absorbCond, visibleChildren,
    childrenElems, findNode, containsElem, subtrees, subtreesOf, subElems,
    DomTree.kids, DomTree.val, bodyC1, gElem, pElem, cElem, List.filter,
    List.find?, List.erase, List.any, beq_eq_decide, Elem.mk.injEq, Rect.mk.injEq]

/-- C1 counterexample: in the three-deep chain body > g > p > c with all of
g, p, c accepted, every visible direct child of p is accepted, yet p itself
is absent from the final result (it is spliced out by g's iteration), so the
claim "the final result contains P" fails for P = p. -/
theorem absorption_drops_nested_parent :
    pElem ∈ acceptedElems bodyC1 sW eW ∧
      visibleChildren bodyC1 pElem ≠ [] ∧
      (∀ c ∈ visibleChildren bodyC1 pElem, c ∈ acceptedElems bodyC1 sW eW) ∧
      pElem ∉ getElementsInArea bodyC1 sW eW := by
  rw [accepted_bodyC1, visibleChildren_pElem, result_bodyC1]
  refine ⟨by simp, by simp, ?_, ?_⟩
  · intro c hc
    rw [List.mem_singleton.mp hc]
    simp
  · intro h
    rw [List.mem_singleton] at h
    have := congrArg Elem.ref h
    simp [pElem, gElem] at this

/-- C1 amended: let P be accepted with at least one visible direct child and
all of its visible direct children accepted.  Then every accepted proper
descendant of P is removed from the final result, and P itself is kept
provided no accepted element strictly containing P satisfies the absorption
condition (in the counterexample above that proviso fails for P = p because
of g, and indeed p is dropped). -/
theorem absorption_keeps_maximal_parent (body : DomTree) (s e : Pt)
    (hnd : (bodyElems body).Nodup) (P : Elem)
    (hP : P ∈ acceptedElems body s e)
    (hvis : visibleChildren body P ≠ [])
    (hall : ∀ c ∈ visibleChildren body P, c ∈ acceptedElems body s e)
    (hmax : ∀ Q ∈ acceptedElems body s e, Q ≠ P → containsElem body Q P = true →
      absorbCond body (acceptedElems body s e) Q = false) :
    P ∈ getElementsInArea body s e ∧
      ∀ d ∈ acceptedElems body s e, d ≠ P → containsElem body P d = true →
        d ∉ getElementsInArea body s e := by
  have hcondP : absorbCond body (acceptedElems body s e) P = true :=
    (absorbCond_eq_true_iff body _ P).mpr ⟨hvis, hall⟩
  constructor
  · rw [mem_getElementsInArea body s e hnd P]
    refine ⟨hP, fun p hp => ?_⟩
    unfold removedBy
    by_cases hpP : p = P
    · have hnotmem : P ∉ descendantsOf body (acceptedElems body s e) p := by
        unfold descendantsOf
        intro hmem
        have h2 := (List.mem_filter.mp hmem).2
        rw [Bool.and_eq_true] at h2
        have h3 := h2.1
        rw [hpP] at h3
        simp at h3
      simp [hnotmem]
    · by_cases hcont : containsElem body p P = true
      · have := hmax p hp hpP hcont
        simp [this]
      · have hnotmem : P ∉ descendantsOf body (acceptedElems body s e) p := by
          unfold descendantsOf
          intro hmem
          have h2 := (List.mem_filter.mp hmem).2
          rw [Bool.and_eq_true] at h2
          exact hcont h2.2
        simp [hnotmem]
  · intro d hd hdP hcont hres
    have hchar := (mem_getElementsInArea body s e hnd d).mp hres
    have hrem := hchar.2 P hP
    unfold removedBy at hrem
    have hmem : d ∈ descendantsOf body (acceptedElems body s e) P := by
      unfold descendantsOf
      refine List.mem_filter.mpr ⟨hd, ?_⟩
      rw [Bool.and_eq_true]
      exact ⟨by simp [hdP], hcont⟩
    rw [hcondP] at hrem
    simp [hmem] at hrem

/-- Witness page for the amended absorption theorem: body > p > c with p
maximal among accepted elements. -/
def pW2 : Elem := ⟨1, ⟨20, 20, 40, 40⟩⟩

/-- Witness child element. -/
def cW2 : Elem := ⟨2, ⟨25, 25, 10, 10⟩⟩

/-- Witness body. -/
def bodyW2 : DomTree := .node ⟨0, ⟨0, 0, 800, 600⟩⟩ [.node pW2 [.node cW2 []]]

theorem bodyElems_bodyW2 : bodyElems bodyW2 = [pW2, cW2] := by
  simp [bodyElems, bodyW2, subtreesOf, subtrees, DomTree.kids, DomTree.val]

theorem accepted_bodyW2 : acceptedElems bodyW2 sW eW = [pW2, cW2] := by
  rw [acceptedElems, bodyElems_bodyW2]
  norm_num [pW2, cW2, sW, eW, selLeft, selTop, selRight, selBottom,
    selArea, rectArea, centerX, centerY, min_def, max_def, List.filter]

theorem visibleChildren_pW2 : visibleChildren bodyW2 pW2 = [cW2] := by
  norm_num [visibleChildren, childrenElems, findNode, bodyW2, subtrees, subtreesOf,
    DomTree.kids, DomTree.val, pW2, cW2, List.filter, List.find?]

theorem contains_cW2_pW2 : containsElem bodyW2 cW2 pW2 = false := by
  norm_num [containsElem, bodyW2, subtrees, subtreesOf, subElems,
    DomTree.kids, DomTree.val, pW2, cW2, List.any]

theorem absorption_keeps_maximal_parent_witness :
    pW2 ∈ getElementsInArea bodyW2 sW eW ∧ cW2 ∉ getElementsInArea bodyW2 sW eW := by
  have hne : pW2 ≠ cW2 := by
    intro h
    have := congrArg Elem.ref h
    simp [pW2, cW2] at this
  have h := absorption_keeps_maximal_parent bodyW2 sW eW
    (by rw [bodyElems_bodyW2]; simp [hne])
    pW2
    (by rw [accepted_bodyW2]; simp)
    (by rw [visibleChildren_pW2]; simp)
    (by
      intro c hc
      rw [visibleChildren_pW2, List.mem_singleton] at hc
      rw [hc, accepted_bodyW2]
      simp)
    (by
      intro Q hQ hQne hQcont
      rw [accepted_bodyW2] at hQ
      rcases List.mem_pair.mp hQ with h1 | h2
      · exact absurd h1 hQne
      · rw [h2] at hQcont
        rw [contains_cW2_pW2] at hQcont
        exact absurd hQcont (by simp))
  refine ⟨h.1, h.2 cW2 (by rw [accepted_bodyW2]; simp) (Ne.symm hne) ?_⟩
  norm_num [containsElem, bodyW2, subtrees, subtreesOf, subElems,
    DomTree.kids, DomTree.val, pW2, cW2, List.any]

/-! ## C8: empty selection rectangle -/

/-- The toast shown by handleMouseUp after area resolution. -/
inductive AreaToast where
  | selectedCount (n : ℕ)
  | noElements
deriving DecidableEq, Repr

/-- The branch of handleMouseUp that reports the outcome of the area
resolution: a count toast when something was resolved, otherwise the
"no elements in the area" toast. -/
def mouseUpToast (selectedInArea : List Elem) (totalSelected : ℕ) : AreaToast :=
  if selectedInArea.length > 0 then .selectedCount totalSelected else .noElements

/-- A zero-area element sitting exactly at the degenerate drag point. -/
def zElem : Elem := ⟨1, ⟨50, 50, 0, 0⟩⟩

/-- Page containing only the zero-area element. -/
def bodyC8 : DomTree := .node ⟨0, ⟨0, 0, 800, 600⟩⟩ [.node zElem []]

/-- The degenerate drag point. -/
def pC8 : Pt := ⟨50, 50⟩

/-- C8 counterexample: a zero-width, zero-height drag (start = end) does not
always yield an empty result: a zero-area element whose center coincides
with the drag point passes both the size filter (0 is not greater than 0)
and the center test, so getElementsInArea returns it and the caller shows
the count toast rather than "no elements found". -/
theorem empty_rect_nonempty_result :
    selRight pC8 pC8 - selLeft pC8 pC8 = 0 ∧
      selBottom pC8 pC8 - selTop pC8 pC8 = 0 ∧
      getElementsInArea bodyC8 pC8 pC8 = [zElem] ∧
      mouseUpToast (getElementsInArea bodyC8 pC8 pC8) 1 = AreaToast.selectedCount 1 := by
  have hacc : acceptedElems bodyC8 pC8 pC8 = [zElem] := by
    rw [acceptedElems]
    norm_num [bodyElems, bodyC8, subtreesOf, subtrees, DomTree.kids, DomTree.val,
      zElem, pC8, selLeft, selTop, selRight, selBottom, selArea, rectArea,
      centerX, centerY, min_def, max_def, List.filter]
  have hres : getElementsInArea bodyC8 pC8 pC8 = [zElem] := by
    rw [getElementsInArea, hacc]
    simp [List.foldl, absorbStep, descendantsOf, List.filter]
  refine ⟨?_, ?_, hres, ?_⟩
  · norm_num [selRight, selLeft, pC8, min_def, max_def]
  · norm_num [selBottom, selTop, pC8, min_def, max_def]
  · rw [hres]
    simp [mouseUpToast]

/-- C8 amended: when the drag rectangle has zero width or zero height, every
element in the result has a zero-area bounding rectangle (provided bounding
rectangles have the nonnegative dimensions the DOM guarantees) -- in
particular no ordinary visible element is returned -- and whenever the
result is empty the caller reports the "no elements in the area" toast. -/
theorem empty_rect_only_zero_area (body : DomTree) (s e : Pt)
    (hdims : ∀ u ∈ bodyElems body, 0 ≤ u.rect.width ∧ 0 ≤ u.rect.height)
    (hz : selRight s e - selLeft s e = 0 ∨ selBottom s e - selTop s e = 0) :
    (∀ el ∈ getElementsInArea body s e, rectArea el.rect = 0) ∧
      (getElementsInArea body s e = [] →
        ∀ n, mouseUpToast (getElementsInArea body s e) n = AreaToast.noElements) := by
  have hsel : selArea s e = 0 := by
    unfold selArea
    rcases hz with h | h <;> rw [h] <;> ring
  constructor
  · intro el hel
    have hsize := (getElementsInArea_size_filter body s e el hel).1
    rw [hsel] at hsize
    have hmem : el ∈ bodyElems body := by
      have hacc := (getElementsInArea_sublist body s e).subset hel
      unfold acceptedElems at hacc
      exact (List.mem_filter.mp hacc).1
    have hw := (hdims el hmem).1
    have hh := (hdims el hmem).2
    have hnn : 0 ≤ rectArea el.rect := mul_nonneg hw hh
    unfold rectArea at hnn hsize ⊢
    linarith
  · intro hempty n
    rw [hempty]
    simp [mouseUpToast]

/-- A page with one ordinary positive-area element away from the drag point,
used to witness the amended empty-rectangle theorem. -/
def bodyC8W : DomTree := .node ⟨0, ⟨0, 0, 800, 600⟩⟩ [.node ⟨1, ⟨10, 10, 5, 6⟩⟩ []]

theorem empty_rect_only_zero_area_witness :
    (∀ u ∈ bodyElems bodyC8W, 0 ≤ u.rect.width ∧ 0 ≤ u.rect.height) ∧
      getElementsInArea bodyC8W pC8 pC8 = [] ∧
      mouseUpToast (getElementsInArea bodyC8W pC8 pC8) 0 = AreaToast.noElements := by
  have hdims : ∀ u ∈ bodyElems bodyC8W, 0 ≤ u.rect.width ∧ 0 ≤ u.rect.height := by
    intro u hu
    have : bodyElems bodyC8W = [⟨1, ⟨10, 10, 5, 6⟩⟩] := by
      simp [bodyElems, bodyC8W, subtreesOf, subtrees, DomTree.kids, DomTree.val]
    rw [this, List.mem_singleton] at hu
    rw [hu]
    norm_num
  have hres : getElementsInArea bodyC8W pC8 pC8 = [] := by
    have hacc : acceptedElems bodyC8W pC8 pC8 = [] := by
      rw [acceptedElems]
      norm_num [bodyElems, bodyC8W, subtreesOf, subtrees, DomTree.kids, DomTree.val,
        pC8, selLeft, selTop, selRight, selBottom, selArea, rectArea,
        centerX, centerY, min_def, max_def, List.filter]
    rw [getElementsInArea, hacc]
    simp
  have h := empty_rect_only_zero_area bodyC8W pC8 pC8 hdims
    (Or.inl (by norm_num [selRight, selLeft, pC8, min_def, max_def]))
  exact ⟨hdims, hres, h.2 hres 0⟩

/-! ## Selection controller state machine (C5, C10)

The content script keeps module-global selection state and mutates it from
DOM event handlers.  The model below tracks exactly the fields relevant to
marker-class bookkeeping and the selection list.  Marker classes are
modelled as finite sets of elements currently carrying the class
(classList.add and classList.remove are idempotent, matching Finset.insert
and Finset.erase).  The area mouse-up handler is parameterized by the list
of elements its call to getElementsInArea resolved, so the theorems cover
every possible resolver outcome. -/

/-- The module-global controller state of the content script. -/
structure CtrlState where
  isSelectionMode : Bool
  isAreaSelectionMode : Bool
  isDrawingArea : Bool
  justFinishedAreaSelection : Bool
  currentElement : Option Elem
  selectedElements : List Elem
  outlined : Finset Elem
  multiSelected : Finset Elem
deriving DecidableEq

/-- handleMouseOver: in selection mode outside an area drag, move the hover
outline from the previous current element to the event target. -/
def handleMouseOver (s : CtrlState) (target : Elem) : CtrlState :=
  if s.isSelectionMode = false then s
  else if s.isAreaSelectionMode then s
  else
    let outlined1 :=
      match s.currentElement with
      | some cur => if cur ≠ target then s.outlined.erase cur else s.outlined
      | none => s.outlined
    { s with currentElement := some target, outlined := insert target outlined1 }

/-- handleClick: toggle membership of the hovered element in the selection
set, updating the marker classes accordingly. -/
def handleClickEv (s : CtrlState) : CtrlState :=
  if s.isSelectionMode = false then s
  else if s.justFinishedAreaSelection then s
  else
    match s.currentElement with
    | none => s
    | some cur =>
        if cur ∈ s.selectedElements then
          { s with selectedElements := s.selectedElements.erase cur,
                   outlined := s.outlined.erase cur,
                   multiSelected := s.multiSelected.erase cur }
        else
          { s with selectedElements := s.selectedElements ++ [cur],
                   multiSelected := insert cur s.multiSelected }

/-- handleMouseDown: an Alt-held press starts an area drag. -/
def handleMouseDownEv (s : CtrlState) (altKey : Bool) : CtrlState :=
  if s.isSelectionMode = false then s
  else if altKey = false then s
  else { s with isDrawingArea := true }

/-- handleMouseUp: finish the drag and add every freshly resolved element
(membership-checked) to the selection set with the multi-selected marker. -/
def handleMouseUpEv (s : CtrlState) (resolved : List Elem) : CtrlState :=
  if s.isSelectionMode = false then s
  else if s.isDrawingArea = false then s
  else
    let s1 := { s with isDrawingArea := false, justFinishedAreaSelection := true }
    resolved.foldl
      (fun t el =>
        if el ∈ t.selectedElements then t
        else { t with selectedElements := t.selectedElements ++ [el],
                      multiSelected := insert el t.multiSelected }) s1

/-- deactivateSelectionMode: clear all mode flags, drop the hover outline of
the current element, strip both marker classes from every selected element
and empty the selection list. -/
def deactivateSelectionMode (s : CtrlState) : CtrlState :=
  if s.isSelectionMode = false then s
  else
    let afterCur : CtrlState :=
      { s with isSelectionMode := false, isAreaSelectionMode := false,
               isDrawingArea := false, justFinishedAreaSelection := false,
               outlined := s.currentElement.elim s.outlined fun cur => s.outlined.erase cur,
               currentElement := none }
    let stripped := s.selectedElements.foldl
      (fun t el => { t with outlined := t.outlined.erase el,
                            multiSelected := t.multiSelected.erase el }) afterCur
    { stripped with selectedElements := [] }

/-- handleKeyDown for Escape: cancel an in-progress drag, otherwise leave
selection mode entirely. -/
def handleEscape (s : CtrlState) : CtrlState :=
  if s.isSelectionMode = false then s
  else if s.isDrawingArea then { s with isDrawingArea := false }
  else deactivateSelectionMode s

/-- handleKeyDown for Enter: processAndCopy runs the copy pipeline (which
does not touch marker classes) and ends by deactivating selection mode. -/
def handleEnter (s : CtrlState) : CtrlState :=
  if s.isSelectionMode = false then s
  else deactivateSelectionMode s

/-- handleKeyDown for Alt: enter area-selection mode. -/
def handleAltDown (s : CtrlState) : CtrlState :=
  if s.isSelectionMode = false then s
  else if s.isAreaSelectionMode then s
  else { s with isAreaSelectionMode := true }

/-- handleKeyUp for Alt: leave area-selection mode unless a drag is active. -/
def handleAltUp (s : CtrlState) : CtrlState :=
  if s.isSelectionMode = false then s
  else if s.isAreaSelectionMode && !s.isDrawingArea then
    { s with isAreaSelectionMode := false }
  else s

/-- The setTimeout callback of handleMouseUp resetting the guard flag. -/
def clearJustFinished (s : CtrlState) : CtrlState :=
  { s with justFinishedAreaSelection := false }

/-- handleFloatingButtonClick without Shift: toggles selection mode
(activateSelectionMode touches no marker classes). -/
def buttonToggle (s : CtrlState) : CtrlState :=
  if s.isSelectionMode = false then { s with isSelectionMode := true }
  else deactivateSelectionMode s

/-- The events that reach the controller state. -/
inductive Event where
  | mouseOver (target : Elem)
  | mouseDown (altKey : Bool)
  | mouseUp (resolved : List Elem)
  | click
  | keyEscape
  | keyEnter
  | keyAltDown
  | keyAltUp
  | timerClear
  | button

/-- Dispatch one event to its handler. -/
def step (s : CtrlState) : Event → CtrlState
  | .mouseOver target => handleMouseOver s target
  | .mouseDown altKey => handleMouseDownEv s altKey
  | .mouseUp resolved => handleMouseUpEv s resolved
  | .click => handleClickEv s
  | .keyEscape => handleEscape s
  | .keyEnter => handleEnter s
  | .keyAltDown => handleAltDown s
  | .keyAltUp => handleAltUp s
  | .timerClear => clearJustFinished s
  | .button => buttonToggle s

/-- The state of a freshly injected content script: idle, nothing selected,
no marker classes anywhere. -/
def initState : CtrlState :=
  ⟨false, false, false, false, none, [], ∅, ∅⟩

/-- Run an event sequence from the initial state. -/
def run (evs : List Event) : CtrlState :=
  evs.foldl step initState

/-- The bookkeeping invariant: every outlined node is the current element or
a selected element, every multi-selected node is selected, and outside
selection mode no marker classes remain at all. -/
def MarkInv (s : CtrlState) : Prop :=
  (∀ el ∈ s.outlined, s.currentElement = some el ∨ el ∈ s.selectedElements) ∧
    (∀ el ∈ s.multiSelected, el ∈ s.selectedElements) ∧
    (s.isSelectionMode = false →
      s.outlined = ∅ ∧ s.multiSelected = ∅ ∧ s.selectedElements = [] ∧
        s.currentElement = none)

theorem foldl_strip_outlined (l : List Elem) :
    ∀ s : CtrlState,
      (l.foldl (fun t el => { t with outlined := t.outlined.erase el,
                                     multiSelected := t.multiSelected.erase el }) s).outlined
        = l.foldl (fun f el => f.erase el) s.outlined := by
  induction l with
  | nil => intro s; rfl
  | cons x xs ih => intro s; rw [List.foldl_cons, List.foldl_cons, ih]

theorem foldl_strip_multi (l : List Elem) :
    ∀ s : CtrlState,
      (l.foldl (fun t el => { t with outlined := t.outlined.erase el,
                                     multiSelected := t.multiSelected.erase el }) s).multiSelected
        = l.foldl (fun f el => f.erase el) s.multiSelected := by
  induction l with
  | nil => intro s; rfl
  | cons x xs ih => intro s; rw [List.foldl_cons, List.foldl_cons, ih]

theorem foldl_strip_fields (l : List Elem) :
    ∀ s : CtrlState,
      (l.foldl (fun t el => { t with outlined := t.outlined.erase el,
                                     multiSelected := t.multiSelected.erase el }) s).isSelectionMode
          = s.isSelectionMode ∧
        (l.foldl (fun t el => { t with outlined := t.outlined.erase el,
                                       multiSelected := t.multiSelected.erase el }) s).currentElement
          = s.currentElement ∧
        (l.foldl (fun t el => { t with outlined := t.outlined.erase el,
                                       multiSelected := t.multiSelected.erase el }) s).selectedElements
          = s.selectedElements := by
  induction l with
  | nil => intro s; exact ⟨rfl, rfl, rfl⟩
  | cons x xs ih => intro s; exact ih _

theorem foldl_finset_erase (l : List Elem) :
    ∀ f : Finset Elem, l.foldl (fun g el => g.erase el) f = f \ l.toFinset := by
  induction l with
  | nil => intro f; simp
  | cons x xs ih =>
    intro f
    rw [List.foldl_cons, ih, List.toFinset_cons, Finset.erase_eq]
    ext a
    simp only [Finset.mem_sdiff, Finset.mem_singleton, Finset.mem_insert, List.mem_toFinset]
    tauto

/-- deactivateSelectionMode leaves no marker class behind whenever the
bookkeeping invariant holds. -/
theorem deactivate_markers (s : CtrlState) (h : MarkInv s) :
    (deactivateSelectionMode s).outlined = ∅ ∧
      (deactivateSelectionMode s).multiSelected = ∅ ∧
      (deactivateSelectionMode s).selectedElements = [] ∧
      (deactivateSelectionMode s).currentElement = none ∧
      (deactivateSelectionMode s).isSelectionMode = false := by
  obtain ⟨h1, h2, h3⟩ := h
  unfold deactivateSelectionMode
  by_cases hmode : s.isSelectionMode = false
  · rw [if_pos hmode]
    obtain ⟨e1, e2, e3, e4⟩ := h3 hmode
    exact ⟨e1, e2, e3, e4, hmode⟩
  · rw [if_neg hmode]
    simp only [foldl_strip_outlined, foldl_strip_multi, foldl_finset_erase,
      (foldl_strip_fields _ _).1, (foldl_strip_fields _ _).2.1]
    refine ⟨?_, ?_, by trivial, by trivial, by trivial⟩
    · rw [Finset.eq_empty_iff_forall_not_mem]
      intro a ha
      rw [Finset.mem_sdiff] at ha
      obtain ⟨hin, hout⟩ := ha
      cases hcur : s.currentElement with
      | some cur =>
        rw [hcur] at hin
        simp only [Option.elim_some, Finset.mem_erase] at hin
        rcases h1 a hin.2 with hc | hs
        · rw [hcur] at hc
          exact hin.1 (Option.some.inj hc).symm
        · exact hout (List.mem_toFinset.mpr hs)
      | none =>
        rw [hcur] at hin
        simp only [Option.elim_none] at hin
        rcases h1 a hin with hc | hs
        · rw [hcur] at hc; cases hc
        · exact hout (List.mem_toFinset.mpr hs)
    · rw [Finset.eq_empty_iff_forall_not_mem]
      intro a ha
      rw [Finset.mem_sdiff] at ha
      exact ha.2 (List.mem_toFinset.mpr (h2 a ha.1))

theorem deactivate_selected (s : CtrlState) :
    (deactivateSelectionMode s).selectedElements = s.selectedElements ∨
      (deactivateSelectionMode s).selectedElements = [] := by
  unfold deactivateSelectionMode
  split
  · exact Or.inl rfl
  · exact Or.inr rfl

theorem markInv_deactivate (s : CtrlState) (h : MarkInv s) :
    MarkInv (deactivateSelectionMode s) := by
  obtain ⟨ho, hm, hsel, hcur, hmode⟩ := deactivate_markers s h
  refine ⟨?_, ?_, ?_⟩
  · intro el hel
    rw [ho] at hel
    exact absurd hel (Finset.not_mem_empty el)
  · intro el hel
    rw [hm] at hel
    exact absurd hel (Finset.not_mem_empty el)
  · intro _
    exact ⟨ho, hm, hsel, hcur⟩

theorem mouseUp_fold_inv (l : List Elem) :
    ∀ t : CtrlState, MarkInv t → t.isSelectionMode = true →
      MarkInv (l.foldl
        (fun u el =>
          if el ∈ u.selectedElements then u
          else { u with selectedElements := u.selectedElements ++ [el],
                        multiSelected := insert el u.multiSelected }) t) ∧
      (l.foldl
        (fun u el =>
          if el ∈ u.selectedElements then u
          else { u with selectedElements := u.selectedElements ++ [el],
                        multiSelected := insert el u.multiSelected }) t).isSelectionMode
        = true := by
  induction l with
  | nil => intro t h htrue; exact ⟨h, htrue⟩
  | cons x xs ih =>
    intro t h htrue
    rw [List.foldl_cons]
    by_cases hx : x ∈ t.selectedElements
    · rw [if_pos hx]
      exact ih t h htrue
    · rw [if_neg hx]
      refine ih _ ⟨?_, ?_, ?_⟩ htrue
      · intro el hel
        rcases h.1 el hel with hc | hs
        · exact Or.inl hc
        · exact Or.inr (List.mem_append_left _ hs)
      · intro el hel
        rcases Finset.mem_insert.mp hel with heq | hmem
        · exact List.mem_append_right _ (by rw [heq]; exact List.mem_singleton.mpr rfl)
        · exact List.mem_append_left _ (h.2.1 el hmem)
      · intro hfalse
        rw [htrue] at hfalse
        cases hfalse

theorem step_preserves (s : CtrlState) (ev : Event) (h : MarkInv s) :
    MarkInv (step s ev) := by
  obtain ⟨h1, h2, h3⟩ := h
  cases ev with
  | mouseOver target =>
    show MarkInv (handleMouseOver s target)
    unfold handleMouseOver
    by_cases hmode : s.isSelectionMode = false
    · rw [if_pos hmode]; exact ⟨h1, h2, h3⟩
    · rw [if_neg hmode]
      by_cases harea : s.isAreaSelectionMode
      · rw [if_pos harea]; exact ⟨h1, h2, h3⟩
      · rw [if_neg harea]
        refine ⟨?_, h2, ?_⟩
        · intro el hel
          cases hcur : s.currentElement with
          | some cur =>
            rw [hcur] at hel
            by_cases hct : cur ≠ target
            · simp only [if_pos hct, Finset.mem_insert, Finset.mem_erase] at hel
              rcases hel with heq | ⟨hne, hmem⟩
              · exact Or.inl (by rw [heq])
              · rcases h1 el hmem with hc | hs
                · rw [hcur] at hc
                  exact absurd (Option.some.inj hc).symm hne
                · exact Or.inr hs
            · simp only [if_neg hct, Finset.mem_insert] at hel
              push_neg at hct
              rcases hel with heq | hmem
              · exact Or.inl (by rw [heq])
              · rcases h1 el hmem with hc | hs
                · rw [hcur] at hc
                  rw [← hct, (Option.some.inj hc)]
                  exact Or.inl rfl
                · exact Or.inr hs
          | none =>
            rw [hcur] at hel
            simp only [Finset.mem_insert] at hel
            rcases hel with heq | hmem
            · exact Or.inl (by rw [heq])
            · rcases h1 el hmem with hc | hs
              · rw [hcur] at hc; cases hc
              · exact Or.inr hs
        · intro hfalse
          exact absurd hfalse hmode
  | mouseDown altKey =>
    show MarkInv (handleMouseDownEv s altKey)
    unfold handleMouseDownEv
    by_cases hmode : s.isSelectionMode = false
    · rw [if_pos hmode]; exact ⟨h1, h2, h3⟩
    · rw [if_neg hmode]
      by_cases halt : altKey = false
      · rw [if_pos halt]; exact ⟨h1, h2, h3⟩
      · rw [if_neg halt]
        exact ⟨h1, h2, fun hfalse => absurd hfalse hmode⟩
  | mouseUp resolved =>
    show MarkInv (handleMouseUpEv s resolved)
    unfold handleMouseUpEv
    by_cases hmode : s.isSelectionMode = false
    · rw [if_pos hmode]; exact ⟨h1, h2, h3⟩
    · rw [if_neg hmode]
      by_cases hdraw : s.isDrawingArea = false
      · rw [if_pos hdraw]; exact ⟨h1, h2, h3⟩
      · rw [if_neg hdraw]
        have htrue : s.isSelectionMode = true := by simpa using hmode
        exact (mouseUp_fold_inv resolved
          { s with isDrawingArea := false, justFinishedAreaSelection := true }
          ⟨h1, h2, fun hfalse => by rw [htrue] at hfalse; cases hfalse⟩ htrue).1
  | click =>
    show MarkInv (handleClickEv s)
    unfold handleClickEv
    by_cases hmode : s.isSelectionMode = false
    · rw [if_pos hmode]; exact ⟨h1, h2, h3⟩
    · rw [if_neg hmode]
      by_cases hjust : s.justFinishedAreaSelection
      · rw [if_pos hjust]; exact ⟨h1, h2, h3⟩
      · rw [if_neg hjust]
        cases hcur : s.currentElement with
        | none => exact ⟨h1, h2, h3⟩
        | some cur =>
          dsimp only
          by_cases hsel : cur ∈ s.selectedElements
          · rw [if_pos hsel]
            refine ⟨?_, ?_, fun hfalse => absurd hfalse hmode⟩
            · intro el hel
              rw [Finset.mem_erase] at hel
              rcases h1 el hel.2 with hc | hs
              · rw [hcur] at hc
                exact absurd (Option.some.inj hc).symm hel.1
              · exact Or.inr ((List.mem_erase_of_ne hel.1).mpr hs)
            · intro el hel
              rw [Finset.mem_erase] at hel
              exact (List.mem_erase_of_ne hel.1).mpr (h2 el hel.2)
          · rw [if_neg hsel]
            refine ⟨?_, ?_, fun hfalse => absurd hfalse hmode⟩
            · intro el hel
              rcases h1 el hel with hc | hs
              · rw [hcur] at hc
                exact Or.inl hc
              · exact Or.inr (List.mem_append_left _ hs)
            · intro el hel
              rcases Finset.mem_insert.mp hel with heq | hmem
              · exact List.mem_append_right _ (by rw [heq]; exact List.mem_singleton.mpr rfl)
              · exact List.mem_append_left _ (h2 el hmem)
  | keyEscape =>
    show MarkInv (handleEscape s)
    unfold handleEscape
    by_cases hmode : s.isSelectionMode = false
    · rw [if_pos hmode]; exact ⟨h1, h2, h3⟩
    · rw [if_neg hmode]
      by_cases hdraw : s.isDrawingArea
      · rw [if_pos hdraw]
        exact ⟨h1, h2, fun hfalse => absurd hfalse hmode⟩
      · rw [if_neg hdraw]
        exact markInv_deactivate s ⟨h1, h2, h3⟩
  | keyEnter =>
    show MarkInv (handleEnter s)
    unfold handleEnter
    by_cases hmode : s.isSelectionMode = false
    · rw [if_pos hmode]; exact ⟨h1, h2, h3⟩
    · rw [if_neg hmode]
      exact markInv_deactivate s ⟨h1, h2, h3⟩
  | keyAltDown =>
    show MarkInv (handleAltDown s)
    unfold handleAltDown
    by_cases hmode : s.isSelectionMode = false
    · rw [if_pos hmode]; exact ⟨h1, h2, h3⟩
    · rw [if_neg hmode]
      by_cases harea : s.isAreaSelectionMode
      · rw [if_pos harea]; exact ⟨h1, h2, h3⟩
      · rw [if_neg harea]
        exact ⟨h1, h2, fun hfalse => absurd hfalse hmode⟩
  | keyAltUp =>
    show MarkInv (handleAltUp s)
    unfold handleAltUp
    by_cases hmode : s.isSelectionMode = false
    · rw [if_pos hmode]; exact ⟨h1, h2, h3⟩
    · rw [if_neg hmode]
      by_cases hcond : (s.isAreaSelectionMode && !s.isDrawingArea) = true
      · rw [if_pos hcond]
        exact ⟨h1, h2, fun hfalse => absurd hfalse hmode⟩
      · rw [if_neg hcond]; exact ⟨h1, h2, h3⟩
  | timerClear =>
    show MarkInv (clearJustFinished s)
    exact ⟨h1, h2, fun hfalse => h3 hfalse⟩
  | button =>
    show MarkInv (buttonToggle s)
    unfold buttonToggle
    by_cases hmode : s.isSelectionMode = false
    · rw [if_pos hmode]
      refine ⟨h1, h2, fun hfalse => ?_⟩
      cases hfalse
    · rw [if_neg hmode]
      exact markInv_deactivate s ⟨h1, h2, h3⟩

theorem markInv_run (evs : List Event) : MarkInv (run evs) := by
  unfold run
  suffices h : ∀ s, MarkInv s → MarkInv (evs.foldl step s) by
    refine h initState ⟨?_, ?_, ?_⟩ <;> simp [initState]
  induction evs with
  | nil => intro s hs; exact hs
  | cons ev evs ih => intro s hs; exact ih _ (step_preserves s ev hs)

/-- C5: after any event sequence of a session, deactivateSelectionMode leaves
no node carrying either marker class (the hover-outline class or the
multi-selected class): the decoration state after deactivation is empty. -/
theorem deactivation_clears_all_markers (evs : List Event) :
    (deactivateSelectionMode (run evs)).outlined = ∅ ∧
      (deactivateSelectionMode (run evs)).multiSelected = ∅ := by
  obtain ⟨ho, hm, -, -, -⟩ := deactivate_markers (run evs) (markInv_run evs)
  exact ⟨ho, hm⟩

theorem mouseUp_fold_nodup (l : List Elem) :
    ∀ t : CtrlState, t.selectedElements.Nodup →
      (l.foldl
        (fun u el =>
          if el ∈ u.selectedElements then u
          else { u with selectedElements := u.selectedElements ++ [el],
                        multiSelected := insert el u.multiSelected }) t).selectedElements.Nodup := by
  induction l with
  | nil => intro t h; exact h
  | cons x xs ih =>
    intro t h
    rw [List.foldl_cons]
    by_cases hx : x ∈ t.selectedElements
    · rw [if_pos hx]; exact ih t h
    · rw [if_neg hx]
      refine ih _ ?_
      rw [List.nodup_append]
      refine ⟨h, List.nodup_singleton x, ?_⟩
      intro a ha hax
      rw [List.mem_singleton] at hax
      subst hax
      exact hx ha

theorem step_nodup (s : CtrlState) (ev : Event) (h : s.selectedElements.Nodup) :
    (step s ev).selectedElements.Nodup := by
  cases ev with
  | mouseOver target =>
    show (handleMouseOver s target).selectedElements.Nodup
    unfold handleMouseOver
    split
    · exact h
    · split
      · exact h
      · exact h
  | mouseDown altKey =>
    show (handleMouseDownEv s altKey).selectedElements.Nodup
    unfold handleMouseDownEv
    split
    · exact h
    · split <;> exact h
  | mouseUp resolved =>
    show (handleMouseUpEv s resolved).selectedElements.Nodup
    unfold handleMouseUpEv
    split
    · exact h
    · split
      · exact h
      · exact mouseUp_fold_nodup resolved _ h
  | click =>
    show (handleClickEv s).selectedElements.Nodup
    unfold handleClickEv
    split
    · exact h
    · split
      · exact h
      · cases hcur : s.currentElement with
        | none => exact h
        | some cur =>
          dsimp only
          by_cases hsel : cur ∈ s.selectedElements
          · rw [if_pos hsel]
            exact h.erase cur
          · rw [if_neg hsel]
            rw [List.nodup_append]
            refine ⟨h, List.nodup_singleton cur, ?_⟩
            intro a ha hax
            rw [List.mem_singleton] at hax
            subst hax
            exact hsel ha
  | keyEscape =>
    show (handleEscape s).selectedElements.Nodup
    unfold handleEscape
    split
    · exact h
    · split
      · exact h
      · rcases deactivate_selected s with hd | hd <;> rw [hd]
        · exact h
        · exact List.nodup_nil
  | keyEnter =>
    show (handleEnter s).selectedElements.Nodup
    unfold handleEnter
    split
    · exact h
    · rcases deactivate_selected s with hd | hd <;> rw [hd]
      · exact h
      · exact List.nodup_nil
  | keyAltDown =>
    show (handleAltDown s).selectedElements.Nodup
    unfold handleAltDown
    split
    · exact h
    · split <;> exact h
  | keyAltUp =>
    show (handleAltUp s).selectedElements.Nodup
    unfold handleAltUp
    split
    · exact h
    · split <;> exact h
  | timerClear => exact h
  | button =>
    show (buttonToggle s).selectedElements.Nodup
    unfold buttonToggle
    split
    · exact h
    · rcases deactivate_selected s with hd | hd <;> rw [hd]
      · exact h
      · exact List.nodup_nil

/-- C10: the selection list is duplicate-free after every event sequence:
both ways of adding elements (the click toggle and the area mouse-up) check
membership first, and removals preserve distinctness. -/
theorem selectedElements_nodup (evs : List Event) :
    (run evs).selectedElements.Nodup := by
  unfold run
  suffices h : ∀ s : CtrlState, s.selectedElements.Nodup →
      (evs.foldl step s).selectedElements.Nodup by
    exact h initState (by simp [initState])
  induction evs with
  | nil => intro s hs; exact hs
  | cons ev evs ih => intro s hs; exact ih _ (step_nodup s ev hs)

/-! ## Markdown conversion pipeline (C6, C9)

convertToMarkdown wraps the whole conversion of one element (clone, link
absolutization, marker-class stripping and the third-party turndown call) in
a try/catch and turns any thrown error into null.  The conversion engine is
abstracted as an oracle from elements to either a Markdown string or a
thrown error.  The YouTube-specific metadata branch applies only on YouTube
hosts and is not modelled. -/

/-- convertToMarkdown: the oracle's result on success, null on a throw. -/
def convertToMarkdown (turndown : Elem → Except String String) (el : Elem) :
    Option String :=
  match turndown el with
  | Except.ok md => some md
  | Except.error _ => none

/-- JavaScript truthiness of an entry of the markdowns array: the filter
(md => md) drops null and also drops the empty string. -/
def truthy (md : Option String) : Bool :=
  match md with
  | some str => !decide (str = "")
  | none => false

/-- The externally observable outcome of processAndCopy: the failure toast
for an empty selection, a clipboard write of combined Markdown followed by
the preview panel, the conversion-failure toast, or dispatch to the image
capture path. -/
inductive CopyOutcome where
  | noSelection
  | copiedMarkdown (text : String)
  | conversionFailed
  | imageCopy (elements : List Elem)
deriving DecidableEq, Repr

/-- Outcome of processAndCopy together with the list of elements that were
passed to convertToMarkdown. -/
structure CopyResult where
  outcome : CopyOutcome
  converted : List Elem
deriving DecidableEq, Repr

/-- processAndCopy: choose the elements to process (the selection list, or
else the hovered element), bail out with a toast when there are none,
dispatch to image capture when in image mode, otherwise convert each element
independently, drop falsy results, and join the rest with a blank-line
separator for the clipboard. -/
def processAndCopy (turndown : Elem → Except String String) (copyAsImage : Bool)
    (selectedElements : List Elem) (currentElement : Option Elem) : CopyResult :=
  let elementsToProcess :=
    if selectedElements.length > 0 then selectedElements
    else
      match currentElement with
      | some cur => [cur]
      | none => []
  if elementsToProcess.length = 0 then ⟨CopyOutcome.noSelection, []⟩
  else if copyAsImage then ⟨CopyOutcome.imageCopy elementsToProcess, []⟩
  else
    let markdowns := (elementsToProcess.map (convertToMarkdown turndown)).filter truthy
    if markdowns.length > 0 then
      ⟨CopyOutcome.copiedMarkdown
          (String.intercalate "\n\n" (markdowns.map fun md => md.getD "")),
        elementsToProcess⟩
    else ⟨CopyOutcome.conversionFailed, elementsToProcess⟩

/-- C9: committing a copy while zero elements are selected and no element is
hovered yields the "no elements selected" failure outcome: no element is
converted and nothing is written to the clipboard (only the copiedMarkdown
outcome represents a clipboard write). -/
theorem processAndCopy_empty_selection (turndown : Elem → Except String String)
    (copyAsImage : Bool) :
    processAndCopy turndown copyAsImage [] none =
      ⟨CopyOutcome.noSelection, []⟩ := by
  rfl

/-! Fixtures for the C6 counterexample: three elements whose conversions all
succeed, the middle one with an empty string. -/

/-- First selected element. -/
def aC6 : Elem := ⟨1, ⟨0, 0, 1, 1⟩⟩

/-- Second selected element. -/
def bC6 : Elem := ⟨2, ⟨0, 0, 1, 1⟩⟩

/-- Third selected element. -/
def cC6 : Elem := ⟨3, ⟨0, 0, 1, 1⟩⟩

/-- Conversion oracle that succeeds on all three elements but produces the
empty string for the second one. -/
def convC6 : Elem → Except String String := fun el =>
  if el.ref = 1 then Except.ok "A"
  else if el.ref = 2 then Except.ok "" else Except.ok "C"

/-- C6 counterexample: the conversion of the middle element does not throw,
so convertToMarkdown returns a non-null result (the empty string), yet that
non-null result is excluded from the combined output, because the filter
(md => md) drops every falsy value and the empty string is falsy.  The
claimed output joining all non-null results would be "A\n\n\n\nC". -/
theorem nonnull_empty_result_dropped :
    convertToMarkdown convC6 bC6 = some "" ∧
      (processAndCopy convC6 false [aC6, bC6, cC6] none).outcome =
        CopyOutcome.copiedMarkdown ("A" ++ "\n\n" ++ "C") := by
  constructor <;> rfl

/-- C6 amended: convertToMarkdown returns null when the underlying
conversion throws, and a throwing element is skipped without affecting the
others: the outcome with the throwing element present equals the outcome
with it removed (provided at least one other element remains).  Results that
are null or empty strings are excluded from the combined output; the
remaining results are joined with a blank-line separator. -/
theorem erroring_element_skipped (turndown : Elem → Except String String)
    (msg : String) (before after : List Elem) (bad : Elem)
    (hbad : turndown bad = Except.error msg)
    (hne : before ++ after ≠ []) :
    convertToMarkdown turndown bad = none ∧
      (processAndCopy turndown false (before ++ bad :: after) none).outcome =
        (processAndCopy turndown false (before ++ after) none).outcome := by
  have hnullbad : convertToMarkdown turndown bad = none := by
    unfold convertToMarkdown
    rw [hbad]
  refine ⟨hnullbad, ?_⟩
  have hmap : ((before ++ bad :: after).map (convertToMarkdown turndown)).filter truthy
      = ((before ++ after).map (convertToMarkdown turndown)).filter truthy := by
    rw [List.map_append, List.map_cons, List.map_append,
      List.filter_append, List.filter_cons, List.filter_append, hnullbad]
    rfl
  have hlen1 : ¬((before ++ bad :: after).length = 0) := by simp
  have hlen2 : ¬((before ++ after).length = 0) := by
    intro h
    exact hne (List.eq_nil_of_length_eq_zero h)
  have hpos1 : (before ++ bad :: after).length > 0 := by simp
  have hpos2 : (before ++ after).length > 0 := List.length_pos.mpr hne
  unfold processAndCopy
  simp only [if_pos hpos1, if_pos hpos2, if_neg hlen1, if_neg hlen2,
    Bool.false_eq_true, if_false, hmap]
  by_cases hq : (List.filter truthy
      (List.map (convertToMarkdown turndown) (before ++ after))).length > 0
  · simp only [if_pos hq]
  · simp only [if_neg hq]

/-- Conversion oracle for the witness: the middle element throws. -/
def convW6 : Elem → Except String String := fun el =>
  if el.ref = 1 then Except.ok "A"
  else if el.ref = 2 then Except.error "boom" else Except.ok "C"

theorem erroring_element_skipped_witness :
    convW6 bC6 = Except.error "boom" ∧ ([aC6] ++ [cC6] : List Elem) ≠ [] ∧
      convertToMarkdown convW6 bC6 = none ∧
      (processAndCopy convW6 false ([aC6] ++ bC6 :: [cC6]) none).outcome =
        (processAndCopy convW6 false ([aC6] ++ [cC6]) none).outcome ∧
      (processAndCopy convW6 false [aC6, bC6, cC6] none).outcome =
        CopyOutcome.copiedMarkdown ("A" ++ "\n\n" ++ "C") := by
  have h := erroring_element_skipped convW6 "boom" [aC6] [cC6] bC6 (by rfl) (by simp)
  exact ⟨by rfl, by simp, h.1, h.2, by rfl⟩

/-! ## Link extraction (C7)

extractLinksFromMarkdown runs three regular expressions over the Markdown
text -- Markdown link syntax, angle-bracket autolinks and bare URLs -- adds
every captured URL to a Set and returns the Set as an array (insertion
order).  Strings are modelled as lists of characters and each regular
expression as an explicit scanner with JavaScript match semantics (leftmost
match, greedy character classes, backtracking only where the class can
overlap the following token). -/

/-- ASCII whitespace as matched by the regex class for whitespace. -/
def isSpaceJS (c : Char) : Bool :=
  c = ' ' || c = '\t' || c = '\n' || c = '\r' || c = '\x0b' || c = '\x0c'

/-- A regex word character (for the word-boundary assertion). -/
def isWordChar (c : Char) : Bool :=
  ('a' ≤ c && c ≤ 'z') || ('A' ≤ c && c ≤ 'Z') || ('0' ≤ c && c ≤ '9') || c = '_'

/-- Match the scheme alternation for http or https followed by the double
slash at the head of the input; returns the matched characters and the
remaining input. -/
def matchScheme (s : List Char) : Option (List Char × List Char) :=
  if s.take 8 = "https://".toList then some ("https://".toList, s.drop 8)
  else if s.take 7 = "http://".toList then some ("http://".toList, s.drop 7)
  else none

/-- Attempt the Markdown link pattern (bracketed non-empty label, then a
parenthesized http or https URL made of non-space, non-parenthesis
characters) at the head of the input; on success returns the captured URL
and the input after the match. -/
def matchLinkAt (s : List Char) : Option (List Char × List Char) :=
  match s with
  | '[' :: rest =>
    let label := rest.takeWhile fun c => !(c = ']')
    let rest2 := rest.dropWhile fun c => !(c = ']')
    if label.length = 0 then none
    else
      match rest2 with
      | ']' :: '(' :: rest3 =>
        match matchScheme rest3 with
        | some (scheme, rest4) =>
          let urlTail := rest4.takeWhile fun c => !(isSpaceJS c) && !(c = ')')
          let rest5 := rest4.dropWhile fun c => !(isSpaceJS c) && !(c = ')')
          if urlTail.length = 0 then none
          else
            match rest5 with
            | ')' :: rest6 => some (scheme ++ urlTail, rest6)
            | _ => none
        | none => none
      | _ => none
  | _ => none

/-- Attempt the autolink pattern (an angle bracket, optional whitespace, an
http or https URL of non-closing-bracket characters, optional whitespace,
closing angle bracket) at the head of the input.  The greedy inner class
reaches the closing bracket, so captured URLs keep any trailing whitespace,
exactly as the regex engine behaves. -/
def matchAutoLinkAt (s : List Char) : Option (List Char × List Char) :=
  match s with
  | '<' :: rest =>
    let rest1 := rest.dropWhile isSpaceJS
    match matchScheme rest1 with
    | some (scheme, rest2) =>
      let run := rest2.takeWhile fun c => !(c = '>')
      let rest3 := rest2.dropWhile fun c => !(c = '>')
      if run.length = 0 then none
      else
        match rest3 with
        | '>' :: rest4 => some (scheme ++ run, rest4)
        | _ => none
    | none => none
  | _ => none

/-- Backtracking for the trailing word-boundary assertion of the bare-URL
pattern: shrink the greedy class run (given reversed) from the right until
the boundary between its last character and the following character holds;
returns the kept run, still reversed. -/
def shrinkRev (revRun : List Char) (next : Option Char) : Option (List Char) :=
  match revRun with
  | [] => none
  | c :: rest =>
    let boundary :=
      match next with
      | none => isWordChar c
      | some d => isWordChar c != isWordChar d
    if boundary then some (c :: rest) else shrinkRev rest (some c)

/-- Attempt the bare URL pattern (an http or https URL of non-space,
non-closing-parenthesis characters, ending at a word boundary) at the head
of the input. -/
def matchBareAt (s : List Char) : Option (List Char × List Char) :=
  match matchScheme s with
  | some (scheme, rest) =>
    let run := rest.takeWhile fun c => !(isSpaceJS c) && !(c = ')')
    let rest2 := rest.drop run.length
    match shrinkRev run.reverse rest2.head? with
    | some revKept => some (scheme ++ revKept.reverse, rest.drop revKept.length)
    | none => none
  | none => none

/-- Run one pattern over the whole input as the exec loop does: try the
pattern at every position, and continue after each match.  The fuel starts
at the input length; every recursive call either drops one character or
continues after a match, which consumes at least one character, so the fuel
never runs out before the input does. -/
def execAllAux (matchAt : List Char → Option (List Char × List Char)) :
    ℕ → List Char → List (List Char)
  | 0, _ => []
  | _ + 1, [] => []
  | fuel + 1, c :: rest =>
    match matchAt (c :: rest) with
    | some (url, rest') => url :: execAllAux matchAt fuel rest'
    | none => execAllAux matchAt fuel rest

/-- All matches of one pattern over the input, in order. -/
def execAll (matchAt : List Char → Option (List Char × List Char))
    (s : List Char) : List (List Char) :=
  execAllAux matchAt s.length s

/-- links.add(url) on a Set represented as its insertion-ordered list. -/
def addToSet (links : List (List Char)) (url : List Char) : List (List Char) :=
  if url ∈ links then links else links ++ [url]

/-- extractLinksFromMarkdown: the three exec loops run one after the other
(all Markdown-link matches, then all autolink matches, then all bare-URL
matches), feeding one insertion-ordered Set. -/
def extractLinksFromMarkdown (markdown : List Char) : List (List Char) :=
  (execAll matchLinkAt markdown ++ execAll matchAutoLinkAt markdown ++
    execAll matchBareAt markdown).foldl addToSet []

theorem foldl_addToSet_spec (l : List (List Char)) :
    ∀ init : List (List Char), ∃ extra,
      l.foldl addToSet init = init ++ extra ∧ List.Sublist extra l ∧
        extra.Nodup ∧ (∀ x ∈ extra, x ∉ init) ∧
        ∀ x, x ∈ l.foldl addToSet init ↔ x ∈ init ∨ x ∈ l := by
  induction l with
  | nil =>
    intro init
    exact ⟨[], by simp, List.Sublist.refl _, List.nodup_nil, by simp, by simp⟩
  | cons y l ih =>
    intro init
    rw [List.foldl_cons]
    by_cases hy : y ∈ init
    · have haddy : addToSet init y = init := by rw [addToSet, if_pos hy]
      rw [haddy]
      obtain ⟨extra, he, hsub, hnd, hnotin, hmem⟩ := ih init
      refine ⟨extra, he, hsub.cons y, hnd, hnotin, fun x => ?_⟩
      rw [hmem x, List.mem_cons]
      constructor
      · rintro (h | h)
        · exact Or.inl h
        · exact Or.inr (Or.inr h)
      · rintro (h | h | h)
        · exact Or.inl h
        · rw [h]; exact Or.inl hy
        · exact Or.inr h
    · have haddy : addToSet init y = init ++ [y] := by rw [addToSet, if_neg hy]
      rw [haddy]
      obtain ⟨extra, he, hsub, hnd, hnotin, hmem⟩ := ih (init ++ [y])
      rw [List.append_assoc] at he
      refine ⟨y :: extra, by simpa using he, hsub.cons₂ y, ?_, ?_, fun x => ?_⟩
      · rw [List.nodup_cons]
        refine ⟨fun hmemy => ?_, hnd⟩
        exact hnotin y hmemy (List.mem_append_right _ (List.mem_singleton.mpr rfl))
      · intro x hx
        rcases List.mem_cons.mp hx with hxy | hxe
        · rw [hxy]; exact hy
        · intro hxinit
          exact hnotin x hxe (List.mem_append_left _ hxinit)
      · rw [hmem x, List.mem_cons]
        constructor
        · rintro (h | h)
          · rcases List.mem_append.mp h with h | h
            · exact Or.inl h
            · exact Or.inr (Or.inl (List.mem_singleton.mp h))
          · exact Or.inr (Or.inr h)
        · rintro (h | h | h)
          · exact Or.inl (List.mem_append_left _ h)
          · exact Or.inl (List.mem_append_right _ (List.mem_singleton.mpr h))
          · exact Or.inr h

/-- C7 amended: extractLinksFromMarkdown returns each distinct URL exactly
once (the list is duplicate-free and contains exactly the URLs matched by
the three patterns), and it preserves first-seen order with respect to the
concatenation of the three passes -- all Markdown-link matches first, then
all autolink matches, then all bare-URL matches (it is a sublist of that
concatenation) -- not with respect to raw text positions. -/
theorem extractLinks_dedup_pass_order (markdown : List Char) :
    (extractLinksFromMarkdown markdown).Nodup ∧
      List.Sublist (extractLinksFromMarkdown markdown)
        (execAll matchLinkAt markdown ++ execAll matchAutoLinkAt markdown ++
          execAll matchBareAt markdown) ∧
      ∀ url, url ∈ extractLinksFromMarkdown markdown ↔
        url ∈ execAll matchLinkAt markdown ++ execAll matchAutoLinkAt markdown ++
          execAll matchBareAt markdown := by
  obtain ⟨extra, he, hsub, hnd, -, hmem⟩ := foldl_addToSet_spec
    (execAll matchLinkAt markdown ++ execAll matchAutoLinkAt markdown ++
      execAll matchBareAt markdown) []
  rw [extractLinksFromMarkdown]
  rw [he, List.nil_append]
  refine ⟨hnd, hsub, fun url => ?_⟩
  have := hmem url
  rw [he, List.nil_append] at this
  simpa using this

/-- The Markdown text of the C7 counterexample: a bare URL at position 0,
then the same-domain link URL in Markdown link syntax. -/
def mdC7 : List Char := "http://a.aa [x](http://b.bb)".toList

/-- C7 counterexample: in the text, http://a.aa occurs first (it is the
prefix of the input), but the Markdown-link pass runs before the bare-URL
pass, so extractLinksFromMarkdown lists http://b.bb first: the output does
not preserve first-seen order of the URLs in the input text. -/
theorem extractLinks_not_text_order :
    extractLinksFromMarkdown mdC7 =
        ["http://b.bb".toList, "http://a.aa".toList] ∧
      mdC7.take 11 = "http://a.aa".toList ∧
      "http://a.aa".toList ≠ "http://b.bb".toList := by
  refine ⟨by decide, by decide, by decide⟩

/-! ## Markdown table normalizer (C3, C4)

normalizeMarkdownTables splits the text on fenced-code delimiters, passes
the odd-indexed segments through untouched, and inside each even-indexed
segment reassembles broken GFM table rows.  Strings are again lists of
characters; the JavaScript string primitives (split on a delimiter, trim,
includes, endsWith) are re-implemented below with their exact semantics. -/

/-- text.split on the triple-backtick delimiter: leftmost, non-overlapping
(so a run of four backticks splits as a delimiter plus one leftover
backtick, as the regex engine does). -/
def splitFence : List Char → List (List Char)
  | [] => [[]]
  | '`' :: '`' :: '`' :: rest => [] :: splitFence rest
  | c :: rest =>
    match splitFence rest with
    | seg :: segs => (c :: seg) :: segs
    | [] => [[c]]

/-- segment.split on the newline character. -/
def splitNl : List Char → List (List Char)
  | [] => [[]]
  | '\n' :: rest => [] :: splitNl rest
  | c :: rest =>
    match splitNl rest with
    | l :: ls => (c :: l) :: ls
    | [] => [[c]]

/-- value.trim(): strip leading and trailing whitespace. -/
def trimStr (s : List Char) : List Char :=
  ((s.dropWhile isSpaceJS).reverse.dropWhile isSpaceJS).reverse

/-- value.includes of the pipe character. -/
def hasPipe (s : List Char) : Bool :=
  decide ('|' ∈ s)

/-- One leading pipe removed (the replace of an anchored leading pipe). -/
def stripLeadPipe (s : List Char) : List Char :=
  match s with
  | '|' :: rest => rest
  | _ => s

/-- One trailing pipe removed (the replace of an anchored trailing pipe). -/
def stripTrailPipe (s : List Char) : List Char :=
  if s.getLast? = some '|' then s.dropLast else s

/-- value.split on the pipe character. -/
def splitPipe : List Char → List (List Char)
  | [] => [[]]
  | '|' :: rest => [] :: splitPipe rest
  | c :: rest =>
    match splitPipe rest with
    | l :: ls => (c :: l) :: ls
    | [] => [[c]]

/-- The test of one separator cell: optional whitespace, an optional colon,
three or more dashes, an optional colon, optional whitespace. -/
def sepPart (part : List Char) : Bool :=
  let t1 := part.dropWhile isSpaceJS
  let t2 := match t1 with
    | ':' :: r => r
    | _ => t1
  let dashes := t2.takeWhile fun c => c = '-'
  let t3 := t2.dropWhile fun c => c = '-'
  let t4 := match t3 with
    | ':' :: r => r
    | _ => t3
  decide (dashes.length ≥ 3) && t4.all isSpaceJS

/-- looksLikeSeparator: the line contains a pipe and, after trimming and
dropping one outer pipe on each side, splits on pipes into at least two
cells that all match the separator-cell pattern. -/
def looksLikeSeparator (value : List Char) : Bool :=
  hasPipe value &&
    (let parts := splitPipe (stripTrailPipe (stripLeadPipe (trimStr value)))
     decide (parts.length ≥ 2) && parts.all sepPart)

/-- The first line after the current one that is not blank (the
nextNonEmptyIndex lookahead). -/
def firstNonBlank (ls : List (List Char)) : Option (List Char) :=
  match ls with
  | [] => none
  | l :: rest => if trimStr l = [] then firstNonBlank rest else some l

/-- isTableStart: the trimmed current line contains a pipe, and the next
non-blank line exists and looks like a separator. -/
def isTableStart (line : List Char) (rest : List (List Char)) : Bool :=
  hasPipe (trimStr line) &&
    (match firstNonBlank rest with
     | some l => looksLikeSeparator l
     | none => false)

/-- The accumulation loop of the normalizer: starting at a table start,
collect lines (blank lines are collected too); a non-blank line with no pipe
that is not a separator ends the table once a separator has been collected.
Returns the collected table lines and the remaining lines.  The running
flag carries whether a separator has been collected so far. -/
def takeTable (hasSep : Bool) : List (List Char) → List (List Char) × List (List Char)
  | [] => ([], [])
  | current :: rest =>
    if trimStr current = [] then
      let ba := takeTable hasSep rest
      (current :: ba.1, ba.2)
    else if !hasPipe current && !looksLikeSeparator current && hasSep then
      ([], current :: rest)
    else
      let ba := takeTable (hasSep || looksLikeSeparator current) rest
      (current :: ba.1, ba.2)

/-- pushRow: flush the row buffer into the row list when its trimmed content
is non-empty. -/
def pushRow (st : List (List Char) × List Char) : List (List Char) × List Char :=
  if trimStr st.2 = [] then st else (st.1 ++ [trimStr st.2], [])

/-- value.trim().endsWith of the pipe character. -/
def endsWithPipe (s : List Char) : Bool :=
  decide (s.getLast? = some '|')

/-- One step of the row-merging loop over the collected table lines: blank
lines extend a non-empty buffer with a space; separators flush the buffer
and are emitted verbatim (trimmed); a new line starts a fresh row when the
buffer is empty or already looks complete (both contain a pipe and the
buffer ends with one); otherwise the trimmed line is appended to the buffer
with a space. -/
def mergeStep (st : List (List Char) × List Char) (raw : List Char) :
    List (List Char) × List Char :=
  let tline := trimStr raw
  if tline = [] then
    if st.2 ≠ [] then (st.1, st.2 ++ [' ']) else st
  else if looksLikeSeparator raw then
    let st2 := pushRow st
    (st2.1 ++ [tline], st2.2)
  else if st.2 = [] then (st.1, raw)
  else if hasPipe raw && hasPipe st.2 && endsWithPipe (trimStr st.2) then
    let st2 := pushRow st
    (st2.1, raw)
  else (st.1, st.2 ++ ' ' :: tline)

/-- The row-merging pass over one collected table block. -/
def mergeBlock (tableLines : List (List Char)) : List (List Char) :=
  let st := tableLines.foldl mergeStep ([], [])
  (pushRow st).1

/-- The line scanner of one non-code segment: copy lines until a table start
is recognized, then collect the table block, merge its rows and continue
after the block.  The fuel starts at the number of lines; every recursive
call proceeds on a strictly shorter list (a recognized table start always
collects at least its first line), so the fuel never runs out before the
lines do. -/
def processLinesAux : ℕ → List (List Char) → List (List Char)
  | 0, _ => []
  | _ + 1, [] => []
  | fuel + 1, line :: rest =>
    if isTableStart line rest then
      let ba := takeTable false (line :: rest)
      mergeBlock ba.1 ++ processLinesAux fuel ba.2
    else
      line :: processLinesAux fuel rest

/-- The line scanner with its initial fuel. -/
def processLines (ls : List (List Char)) : List (List Char) :=
  processLinesAux ls.length ls

/-- Processing of one even-indexed (non-code) segment: split into lines,
scan, and rejoin with newlines. -/
def processSegment (segment : List Char) : List Char :=
  List.intercalate ['\n'] (processLines (splitNl segment))

/-- normalizeMarkdownTables: split on the fence delimiter, keep odd-indexed
segments verbatim, normalize even-indexed segments, and rejoin with the
fence delimiter. -/
def normalizeMarkdownTables (text : List Char) : List Char :=
  List.intercalate "```".toList
    ((splitFence text).mapIdx fun idx segment =>
      if idx % 2 = 1 then segment else processSegment segment)

/-- The C3 counterexample input: a two-column table whose last row ends with
a lone backtick and a trailing space, immediately followed by a fenced code
block. -/
def sC3 : List Char :=
  "| h | h2 |\n| --- | --- |\n| a | b ` ```code```".toList

/-- C3 counterexample: normalizeMarkdownTables is not idempotent.  The first
pass trims the trailing space of the last table row, which moves its lone
backtick directly against the fence delimiter; re-splitting the output then
finds the delimiter one character earlier, the even segment now ends in a
space that the second pass trims as well, and the two outputs differ. -/
theorem normalize_not_idempotent :
    normalizeMarkdownTables (normalizeMarkdownTables sC3) ≠
      normalizeMarkdownTables sC3 := by
  decide

theorem intercalate_cons₂ (sep : List Char) (a b : List Char) (l : List (List Char)) :
    List.intercalate sep (a :: b :: l) = a ++ sep ++ List.intercalate sep (b :: l) := by
  simp [List.intercalate, List.intersperse_cons_cons, List.append_assoc]

theorem mem_intercalate_infix (sep : List Char) (l : List (List Char)) (x : List Char)
    (hx : x ∈ l) : ∃ pre post, List.intercalate sep l = pre ++ x ++ post := by
  induction l with
  | nil => cases hx
  | cons y ys ih =>
    rcases List.mem_cons.mp hx with h | h
    · subst h
      cases ys with
      | nil => exact ⟨[], [], by simp [List.intercalate]⟩
      | cons z zs =>
        refine ⟨[], sep ++ List.intercalate sep (z :: zs), ?_⟩
        rw [intercalate_cons₂]
        simp [List.append_assoc]
    · obtain ⟨pre, post, hpp⟩ := ih h
      cases ys with
      | nil => cases h
      | cons z zs =>
        refine ⟨y ++ sep ++ pre, post, ?_⟩
        rw [intercalate_cons₂, hpp]
        simp [List.append_assoc]

/-- C4: fenced code segments pass through the normalizer verbatim: for every
odd-indexed segment of the fence split, the corresponding entry of the
rebuilt segment list is that segment unchanged, and the segment appears
character-for-character inside the output of normalizeMarkdownTables (the
fence delimiters are reinserted verbatim between consecutive segments by
construction of the rejoin). -/
theorem fenced_segment_unchanged (text : List Char) (i : ℕ)
    (hodd : i % 2 = 1) (hi : i < (splitFence text).length) :
    (((splitFence text).mapIdx fun idx segment =>
        if idx % 2 = 1 then segment else processSegment segment).get
        ⟨i, by rw [List.length_mapIdx]; exact hi⟩ = (splitFence text).get ⟨i, hi⟩) ∧
      ∃ pre post, normalizeMarkdownTables text =
        pre ++ (splitFence text).get ⟨i, hi⟩ ++ post := by
  have hget : (((splitFence text).mapIdx fun idx segment =>
      if idx % 2 = 1 then segment else processSegment segment).get
      ⟨i, by rw [List.length_mapIdx]; exact hi⟩ = (splitFence text).get ⟨i, hi⟩) := by
    rw [List.get_mapIdx]
    rw [if_pos hodd]
  refine ⟨hget, ?_⟩
  have hmem : (splitFence text).get ⟨i, hi⟩ ∈
      (splitFence text).mapIdx fun idx segment =>
        if idx % 2 = 1 then segment else processSegment segment := by
    rw [← hget]
    exact List.get_mem _ i (by rw [List.length_mapIdx]; exact hi)
  exact mem_intercalate_infix _ _ _ hmem

/-- Witness text for the fenced-segment theorem: one code fence between two
plain segments. -/
def tW4 : List Char := "a\n```code```b".toList

theorem fenced_segment_unchanged_witness :
    (1 % 2 = 1) ∧ 1 < (splitFence tW4).length ∧
      ∃ pre post, normalizeMarkdownTables tW4 =
        pre ++ (splitFence tW4).get ⟨1, by decide⟩ ++ post :=
  ⟨by decide, by decide, (fenced_segment_unchanged tW4 1 (by decide) (by decide)).2⟩

/-! ## Idempotence of the normalizer on backtick-free inputs

The counterexample above exploits the interaction between row trimming and
the re-splitting of backtick runs at fence boundaries.  The remainder of
this file proves that this is the only failure mode in the following sense:
on inputs that contain no backtick at all, normalizeMarkdownTables is
idempotent.  The proof characterizes the output of the line scanner (inert
lines interleaved with fully merged table blocks) and shows that a second
scan reproduces it verbatim. -/

theorem splitFence_no_tick : ∀ s : List Char, '`' ∉ s → splitFence s = [s]
  | [], _ => rfl
  | c :: rest, h => by
    have hc : c ≠ '`' := fun hh => h (hh ▸ List.mem_cons_self c rest)
    have hrest : '`' ∉ rest := fun hh => h (List.mem_cons_of_mem c hh)
    have ih := splitFence_no_tick rest hrest
    rw [splitFence.eq_def]
    split
    · rename_i heq
      cases heq
    · rename_i heq
      exact absurd (List.cons.inj heq).1 hc
    · rename_i c2 rest2 hno heq
      obtain ⟨h1, h2⟩ := List.cons.inj heq
      subst h1
      subst h2
      rw [ih]

theorem splitNl_no_nl : ∀ s : List Char, '\n' ∉ s → splitNl s = [s]
  | [], _ => rfl
  | c :: rest, h => by
    have hc : c ≠ '\n' := fun hh => h (hh ▸ List.mem_cons_self c rest)
    have hrest : '\n' ∉ rest := fun hh => h (List.mem_cons_of_mem c hh)
    have ih := splitNl_no_nl rest hrest
    rw [splitNl.eq_def]
    split
    · rename_i heq
      cases heq
    · rename_i heq
      exact absurd (List.cons.inj heq).1 hc
    · rename_i c2 rest2 hno heq
      obtain ⟨h1, h2⟩ := List.cons.inj heq
      subst h1
      subst h2
      rw [ih]

theorem splitNl_append_nl : ∀ l t : List Char, '\n' ∉ l →
    splitNl (l ++ '\n' :: t) = l :: splitNl t
  | [], t, _ => by rw [List.nil_append, splitNl]
  | c :: l, t, h => by
    have hc : c ≠ '\n' := fun hh => h (hh ▸ List.mem_cons_self c l)
    have hl : '\n' ∉ l := fun hh => h (List.mem_cons_of_mem c hh)
    have ih := splitNl_append_nl l t hl
    rw [List.cons_append, splitNl.eq_def]
    split
    · rename_i heq
      cases heq
    · rename_i heq
      exact absurd (List.cons.inj heq).1 hc
    · rename_i c' rest' hne hcons
      obtain ⟨hc', hrest'⟩ := List.cons.inj hcons
      subst hc'
      subst hrest'
      rw [ih]

theorem splitNl_ne_nil : ∀ s : List Char, splitNl s ≠ []
  | [] => by rw [splitNl]; exact List.cons_ne_nil _ _
  | c :: rest => by
    rw [splitNl.eq_def]
    split
    · exact List.cons_ne_nil _ _
    · exact List.cons_ne_nil _ _
    · split
      · exact List.cons_ne_nil _ _
      · exact List.cons_ne_nil _ _

theorem splitNl_no_nl_mem : ∀ s : List Char, ∀ l ∈ splitNl s, '\n' ∉ l
  | [] => by
    intro l hl
    rw [splitNl] at hl
    rw [List.mem_singleton.mp hl]
    exact List.not_mem_nil _
  | c :: rest => by
    intro l hl
    rw [splitNl.eq_def] at hl
    revert hl
    split
    · intro hl
      rw [List.mem_singleton.mp hl]
      exact List.not_mem_nil _
    · rename_i heq
      obtain ⟨rfl, rfl⟩ := List.cons.inj heq
      intro hl
      rcases List.mem_cons.mp hl with hh | hh
      · rw [hh]; exact List.not_mem_nil _
      · exact splitNl_no_nl_mem rest l hh
    · rename_i c2 rest2 hne hcons
      obtain ⟨h1, h2⟩ := List.cons.inj hcons
      subst h1
      subst h2
      split
      · rename_i seg segs hseg
        intro hl
        rcases List.mem_cons.mp hl with hh | hh
        · subst hh
          intro hmem
          rcases List.mem_cons.mp hmem with hh | hh
          · exact hne (by rw [hh])
          · have hmem2 : seg ∈ splitNl rest := by
              rw [hseg]; exact List.mem_cons_self _ _
            exact splitNl_no_nl_mem rest seg hmem2 hh
        · have hmem2 : l ∈ splitNl rest := by
            rw [hseg]; exact List.mem_cons_of_mem _ hh
          exact splitNl_no_nl_mem rest l hmem2
      · rename_i hseg
        exact absurd hseg (splitNl_ne_nil rest)

theorem intercalate_singleton (x : List Char) :
    List.intercalate ['\n'] [x] = x := by
  simp [List.intercalate]

theorem splitNl_intercalate : ∀ out : List (List Char),
    (∀ l ∈ out, '\n' ∉ l) → out ≠ [] →
      splitNl (List.intercalate ['\n'] out) = out
  | [], _, hne => absurd rfl hne
  | [x], h, _ => by
    rw [intercalate_singleton]
    exact splitNl_no_nl x (h x (List.mem_singleton.mpr rfl))
  | x :: y :: rest, h, _ => by
    have hx : '\n' ∉ x := h x (List.mem_cons_self _ _)
    have ih := splitNl_intercalate (y :: rest)
      (fun l hl => h l (List.mem_cons_of_mem _ hl)) (List.cons_ne_nil _ _)
    rw [intercalate_cons₂]
    rw [List.append_assoc, List.singleton_append, splitNl_append_nl x _ hx, ih]

/-! Facts about trim, pipes and the separator test. -/

theorem mem_dropWhile_of_not (p : Char → Bool) :
    ∀ l : List Char, ∀ c, c ∈ l → p c = false → c ∈ l.dropWhile p := by
  intro l
  induction l with
  | nil => intro c hc; cases hc
  | cons x t ih =>
    intro c hc hpc
    by_cases hx : p x
    · rw [List.dropWhile_cons_of_pos hx]
      rcases List.mem_cons.mp hc with h | h
      · rw [h] at hpc; rw [hpc] at hx; cases hx
      · exact ih c h hpc
    · rw [List.dropWhile_cons_of_neg hx]
      exact hc

theorem dropWhile_subset (p : Char → Bool) (l : List Char) :
    ∀ c ∈ l.dropWhile p, c ∈ l := by
  intro c hc
  have h := List.takeWhile_append_dropWhile p l
  rw [← h]
  exact List.mem_append_right _ hc

theorem trimStr_subset (s : List Char) : ∀ c ∈ trimStr s, c ∈ s := by
  intro c hc
  unfold trimStr at hc
  rw [List.mem_reverse] at hc
  have h1 := dropWhile_subset isSpaceJS _ c hc
  rw [List.mem_reverse] at h1
  exact dropWhile_subset isSpaceJS _ c h1

theorem mem_trimStr (s : List Char) (c : Char) (hc : c ∈ s)
    (hsp : isSpaceJS c = false) : c ∈ trimStr s := by
  unfold trimStr
  rw [List.mem_reverse]
  apply mem_dropWhile_of_not isSpaceJS _ c _ hsp
  rw [List.mem_reverse]
  exact mem_dropWhile_of_not isSpaceJS _ c hc hsp

theorem dropWhile_noLead (p : Char → Bool) :
    ∀ l : List Char, ∀ c, (l.dropWhile p).head? = some c → p c = false := by
  intro l
  induction l with
  | nil => intro c hc; cases hc
  | cons x t ih =>
    intro c hc
    by_cases hx : p x
    · rw [List.dropWhile_cons_of_pos hx] at hc
      exact ih c hc
    · rw [List.dropWhile_cons_of_neg hx] at hc
      have hxc : x = c := by simpa using hc
      rw [← hxc]
      exact Bool.eq_false_iff.mpr hx

theorem dropWhile_eq_self_of_head (p : Char → Bool) (l : List Char)
    (h : ∀ c, l.head? = some c → p c = false) : l.dropWhile p = l := by
  cases l with
  | nil => rfl
  | cons x t =>
    have hx := h x rfl
    rw [List.dropWhile_cons_of_neg (by rw [hx]; exact Bool.false_ne_true)]

theorem trimStr_idem (s : List Char) : trimStr (trimStr s) = trimStr s := by
  unfold trimStr
  set u := s.dropWhile isSpaceJS with hu
  set v := u.reverse.dropWhile isSpaceJS with hv
  have hvlead : ∀ c, v.head? = some c → isSpaceJS c = false := fun c hc =>
    dropWhile_noLead isSpaceJS u.reverse c hc
  have hstep1 : v.reverse.dropWhile isSpaceJS = v.reverse := by
    apply dropWhile_eq_self_of_head
    intro c hc
    rw [List.head?_reverse] at hc
    have hvne : v ≠ [] := by
      intro hnil
      rw [hnil] at hc
      cases hc
    have hlast : v.getLast? = u.reverse.getLast? := by
      have hsplit := List.takeWhile_append_dropWhile isSpaceJS u.reverse
      rw [← hv] at hsplit
      rw [← hsplit]
      exact (List.getLast?_append_of_ne_nil _ hvne).symm
    rw [hlast] at hc
    rw [List.getLast?_reverse] at hc
    exact dropWhile_noLead isSpaceJS s c hc
  rw [hstep1, List.reverse_reverse, dropWhile_eq_self_of_head isSpaceJS v hvlead]

theorem trimStr_append_spaces (s suf : List Char)
    (hsuf : ∀ c ∈ suf, isSpaceJS c = true) :
    trimStr (s ++ suf) = trimStr s := by
  unfold trimStr
  by_cases hu : s.dropWhile isSpaceJS = []
  · have hdrop : (s ++ suf).dropWhile isSpaceJS = suf.dropWhile isSpaceJS := by
      rw [List.dropWhile_append]
      rw [hu]
      simp
    have hsufdrop : suf.dropWhile isSpaceJS = [] := by
      rw [List.dropWhile_eq_nil_iff]
      intro x hx
      rw [hsuf x hx]
    rw [hdrop, hsufdrop, hu]
  · have hdrop : (s ++ suf).dropWhile isSpaceJS = s.dropWhile isSpaceJS ++ suf := by
      rw [List.dropWhile_append]
      simp only [List.isEmpty_iff]
      rw [if_neg hu]
    rw [hdrop, List.reverse_append]
    rw [List.dropWhile_append_of_pos]
    intro c hc
    rw [List.mem_reverse] at hc
    exact hsuf c hc

theorem trimStr_nil : trimStr [] = [] := rfl

theorem hasPipe_trimStr (s : List Char) : hasPipe (trimStr s) = hasPipe s := by
  unfold hasPipe
  by_cases h : '|' ∈ s
  · rw [decide_eq_true h, decide_eq_true (mem_trimStr s '|' h (by decide))]
  · have h2 : '|' ∉ trimStr s := fun hh => h (trimStr_subset s '|' hh)
    rw [decide_eq_false h, decide_eq_false h2]

theorem trimStr_ne_nil_of_pipe (s : List Char) (h : hasPipe s = true) :
    trimStr s ≠ [] := by
  intro hnil
  have h2 : hasPipe (trimStr s) = true := by rw [hasPipe_trimStr]; exact h
  rw [hnil] at h2
  unfold hasPipe at h2
  simp at h2

theorem looksLikeSeparator_trimStr (s : List Char) :
    looksLikeSeparator (trimStr s) = looksLikeSeparator s := by
  unfold looksLikeSeparator
  rw [hasPipe_trimStr, trimStr_idem]

/-! Structure of the accumulation loop and of the fueled scanner. -/

theorem ne_nil_of_hasPipe (s : List Char) (h : hasPipe s = true) : s ≠ [] := by
  unfold hasPipe at h
  exact List.ne_nil_of_mem (of_decide_eq_true h)

theorem isTableStart_trim_ne (line : List Char) (rest : List (List Char))
    (h : isTableStart line rest = true) : trimStr line ≠ [] := by
  unfold isTableStart at h
  rw [Bool.and_eq_true] at h
  exact ne_nil_of_hasPipe _ h.1

theorem takeTable_append : ∀ (hs : Bool) (ls : List (List Char)),
    (takeTable hs ls).1 ++ (takeTable hs ls).2 = ls := by
  intro hs ls
  induction ls generalizing hs with
  | nil => rfl
  | cons current rest ih =>
    rw [takeTable]
    by_cases hblank : trimStr current = []
    · rw [if_pos hblank]
      rw [List.cons_append, ih hs]
    · rw [if_neg hblank]
      by_cases hbreak : (!hasPipe current && !looksLikeSeparator current && hs) = true
      · rw [if_pos hbreak]
        rfl
      · rw [if_neg hbreak]
        dsimp only
        rw [List.cons_append, ih _]

theorem takeTable_len (hs : Bool) (ls : List (List Char)) :
    ((takeTable hs ls).2).length ≤ ls.length := by
  have h := takeTable_append hs ls
  have h2 := congrArg List.length h
  rw [List.length_append] at h2
  omega

theorem takeTable_after_shape : ∀ (hs : Bool) (ls : List (List Char)),
    (takeTable hs ls).2 = [] ∨ ∃ t ts, (takeTable hs ls).2 = t :: ts ∧
      trimStr t ≠ [] ∧ hasPipe t = false ∧ looksLikeSeparator t = false := by
  intro hs ls
  induction ls generalizing hs with
  | nil => exact Or.inl rfl
  | cons current rest ih =>
    rw [takeTable]
    by_cases hblank : trimStr current = []
    · rw [if_pos hblank]
      exact ih hs
    · rw [if_neg hblank]
      by_cases hbreak : (!hasPipe current && !looksLikeSeparator current && hs) = true
      · rw [if_pos hbreak]
        rw [Bool.and_eq_true, Bool.and_eq_true] at hbreak
        refine Or.inr ⟨current, rest, rfl, hblank, ?_, ?_⟩
        · simpa using hbreak.1.1
        · simpa using hbreak.1.2
      · rw [if_neg hbreak]
        exact ih _

theorem takeTable_false_cons (line : List Char) (rest : List (List Char))
    (h1 : trimStr line ≠ []) :
    takeTable false (line :: rest) =
      (line :: (takeTable (looksLikeSeparator line) rest).1,
        (takeTable (looksLikeSeparator line) rest).2) := by
  rw [takeTable]
  rw [if_neg h1]
  have hbreak : (!hasPipe line && !looksLikeSeparator line && false) = false := by
    simp
  rw [hbreak]
  simp

theorem processLinesAux_fuel : ∀ (n f1 f2 : ℕ) (ls : List (List Char)),
    ls.length ≤ n → ls.length ≤ f1 → ls.length ≤ f2 →
    processLinesAux f1 ls = processLinesAux f2 ls := by
  intro n
  induction n with
  | zero =>
    intro f1 f2 ls h0 _ _
    have hnil : ls = [] := List.eq_nil_of_length_eq_zero (Nat.le_zero.mp h0)
    subst hnil
    cases f1 <;> cases f2 <;> rfl
  | succ n ih =>
    intro f1 f2 ls hn h1 h2
    cases ls with
    | nil => cases f1 <;> cases f2 <;> rfl
    | cons line rest =>
      cases f1 with
      | zero => exact absurd h1 (by simp)
      | succ f1 =>
        cases f2 with
        | zero => exact absurd h2 (by simp)
        | succ f2 =>
          rw [processLinesAux, processLinesAux]
          by_cases hts : isTableStart line rest = true
          · rw [if_pos hts, if_pos hts]
            dsimp only
            congr 1
            have hstart := isTableStart_trim_ne line rest hts
            have hcons := takeTable_false_cons line rest hstart
            have hlen : ((takeTable false (line :: rest)).2).length ≤ rest.length := by
              rw [hcons]
              exact takeTable_len _ _
            have hrest : rest.length ≤ n := by
              simp only [List.length_cons] at hn
              omega
            refine ih f1 f2 _ (hlen.trans hrest) ?_ ?_
            · simp only [List.length_cons] at h1
              omega
            · simp only [List.length_cons] at h2
              omega
          · rw [if_neg hts, if_neg hts]
            congr 1
            refine ih f1 f2 rest ?_ ?_ ?_ <;>
              simp only [List.length_cons] at hn h1 h2 <;> omega

theorem processLines_cons_inert (line : List Char) (rest : List (List Char))
    (h : isTableStart line rest = false) :
    processLines (line :: rest) = line :: processLines rest := by
  unfold processLines
  show processLinesAux (rest.length + 1) (line :: rest) = _
  rw [processLinesAux]
  rw [if_neg (by rw [h]; exact Bool.false_ne_true)]

theorem processLines_cons_block (line : List Char) (rest : List (List Char))
    (h : isTableStart line rest = true) :
    processLines (line :: rest) =
      mergeBlock (takeTable false (line :: rest)).1 ++
        processLines (takeTable false (line :: rest)).2 := by
  unfold processLines
  show processLinesAux (rest.length + 1) (line :: rest) = _
  rw [processLinesAux]
  rw [if_pos h]
  dsimp only
  congr 1
  have hstart := isTableStart_trim_ne line rest h
  have hcons := takeTable_false_cons line rest hstart
  have hlen : ((takeTable false (line :: rest)).2).length ≤ rest.length := by
    rw [hcons]
    exact takeTable_len _ _
  exact processLinesAux_fuel rest.length _ _ _ hlen hlen (Nat.le_refl _)

/-! Analysis of the row-merging pass. -/

/-- A finished table row: already trimmed, non-empty, containing a pipe. -/
def RowOk (r : List Char) : Prop :=
  trimStr r = r ∧ r ≠ [] ∧ hasPipe r = true

/-- The link between consecutive finished rows: a non-separator row that does
not end with a pipe must be followed by a separator (it was flushed either by
a separator or as the last line of the block). -/
def RowLink (a b : List Char) : Prop :=
  looksLikeSeparator a = false → endsWithPipe a = false → looksLikeSeparator b = true

/-- The shape of a fully merged table block. -/
def GoodRows (rows : List (List Char)) : Prop :=
  (∀ r ∈ rows, RowOk r) ∧ List.Chain' RowLink rows

theorem pushRow_empty (acc : List (List Char)) : pushRow (acc, []) = (acc, []) := by
  unfold pushRow
  rw [if_pos]
  rfl

theorem pushRow_flush (acc : List (List Char)) (buf : List Char)
    (htr : trimStr buf ≠ []) : pushRow (acc, buf) = (acc ++ [trimStr buf], []) := by
  unfold pushRow
  rw [if_neg htr]

theorem mergeStep_blank (st : List (List Char) × List Char) (raw : List Char)
    (h : trimStr raw = []) :
    mergeStep st raw = if st.2 ≠ [] then (st.1, st.2 ++ [' ']) else st := by
  unfold mergeStep
  rw [if_pos h]

theorem mergeStep_sep (st : List (List Char) × List Char) (raw : List Char)
    (hne : trimStr raw ≠ []) (hsep : looksLikeSeparator raw = true) :
    mergeStep st raw = ((pushRow st).1 ++ [trimStr raw], (pushRow st).2) := by
  unfold mergeStep
  rw [if_neg hne, if_pos hsep]

theorem mergeStep_newRow (st : List (List Char) × List Char) (raw : List Char)
    (hne : trimStr raw ≠ []) (hsep : looksLikeSeparator raw = false)
    (hbuf : st.2 = []) :
    mergeStep st raw = (st.1, raw) := by
  unfold mergeStep
  rw [if_neg hne, if_neg (by rw [hsep]; exact Bool.false_ne_true), if_pos hbuf]

theorem mergeStep_complete (st : List (List Char) × List Char) (raw : List Char)
    (hne : trimStr raw ≠ []) (hsep : looksLikeSeparator raw = false)
    (hbuf : st.2 ≠ [])
    (hcond : (hasPipe raw && hasPipe st.2 && endsWithPipe (trimStr st.2)) = true) :
    mergeStep st raw = ((pushRow st).1, raw) := by
  unfold mergeStep
  rw [if_neg hne, if_neg (by rw [hsep]; exact Bool.false_ne_true), if_neg hbuf,
    if_pos hcond]

theorem mergeStep_extend (st : List (List Char) × List Char) (raw : List Char)
    (hne : trimStr raw ≠ []) (hsep : looksLikeSeparator raw = false)
    (hbuf : st.2 ≠ [])
    (hcond : (hasPipe raw && hasPipe st.2 && endsWithPipe (trimStr st.2)) = false) :
    mergeStep st raw = (st.1, st.2 ++ ' ' :: trimStr raw) := by
  unfold mergeStep
  rw [if_neg hne, if_neg (by rw [hsep]; exact Bool.false_ne_true), if_neg hbuf,
    if_neg (by rw [hcond]; exact Bool.false_ne_true)]

/-- Merging a list of finished rows reproduces them: the generalized fold
statement, with an optional pending buffer holding one finished
non-separator row. -/
theorem merge_fold_good : ∀ (rows : List (List Char)) (acc : List (List Char))
    (buf : List Char),
    (buf = [] ∨ (trimStr buf = buf ∧ buf ≠ [] ∧ hasPipe buf = true ∧
      looksLikeSeparator buf = false ∧
      (endsWithPipe buf = false → ∀ b, rows.head? = some b →
        looksLikeSeparator b = true))) →
    (∀ r ∈ rows, RowOk r) → List.Chain' RowLink rows →
    (pushRow (rows.foldl mergeStep (acc, buf))).1 =
      acc ++ (if buf = [] then [] else [buf]) ++ rows := by
  intro rows
  induction rows with
  | nil =>
    intro acc buf hbuf _ _
    rw [List.foldl_nil]
    rcases hbuf with rfl | ⟨htr, hne, -, -, -⟩
    · rw [pushRow_empty]
      simp
    · rw [pushRow_flush acc buf (by rw [htr]; exact hne), htr]
      rw [if_neg hne]
      simp
  | cons r rest ih =>
    intro acc buf hbuf hall hchain
    obtain ⟨htr, hrne, hrpipe⟩ := hall r (List.mem_cons_self _ _)
    have htrne : trimStr r ≠ [] := by rw [htr]; exact hrne
    have hallrest : ∀ x ∈ rest, RowOk x := fun x hx => hall x (List.mem_cons_of_mem _ hx)
    have hchainrest : List.Chain' RowLink rest := (List.chain'_cons'.mp hchain).2
    have hlink : ∀ b ∈ rest.head?, RowLink r b := (List.chain'_cons'.mp hchain).1
    rw [List.foldl_cons]
    by_cases hsep : looksLikeSeparator r = true
    · rw [mergeStep_sep _ r htrne hsep, htr]
      rcases hbuf with rfl | ⟨htrb, hbne, -, -, -⟩
      · rw [pushRow_empty]
        rw [ih (acc ++ [r]) [] (Or.inl rfl) hallrest hchainrest]
        simp
      · rw [pushRow_flush acc buf (by rw [htrb]; exact hbne), htrb]
        rw [ih (acc ++ [buf] ++ [r]) [] (Or.inl rfl) hallrest hchainrest]
        rw [if_neg hbne]
        simp
    · have hsep' : looksLikeSeparator r = false := Bool.eq_false_iff.mpr hsep
      rcases hbuf with rfl | ⟨htrb, hbne, hbpipe, hbnsep, hbend⟩
      · rw [mergeStep_newRow _ r htrne hsep' rfl]
        rw [ih acc r (Or.inr ⟨htr, hrne, hrpipe, hsep',
          fun hend b hb => hlink b hb hsep' hend⟩) hallrest hchainrest]
        rw [if_neg hrne]
        simp
      · by_cases hend : endsWithPipe buf = true
        · have hcond : (hasPipe r && hasPipe buf && endsWithPipe (trimStr buf)) = true := by
            rw [hrpipe, hbpipe, htrb, hend]
            rfl
          rw [mergeStep_complete _ r htrne hsep' hbne hcond]
          rw [pushRow_flush acc buf (by rw [htrb]; exact hbne), htrb]
          rw [ih (acc ++ [buf]) r (Or.inr ⟨htr, hrne, hrpipe, hsep',
            fun hend2 b hb => hlink b hb hsep' hend2⟩) hallrest hchainrest]
          rw [if_neg hbne, if_neg hrne]
          simp
        · have hend' : endsWithPipe buf = false := Bool.eq_false_iff.mpr hend
          have := hbend hend' r rfl
          exact absurd this hsep

/-- C3-amended building block: merging an already merged block is the
identity. -/
theorem mergeBlock_good (rows : List (List Char)) (h : GoodRows rows) :
    mergeBlock rows = rows := by
  unfold mergeBlock
  dsimp only
  rw [merge_fold_good rows [] [] (Or.inl rfl) h.1 h.2]
  simp

/-- The buffer of the merging loop is empty or contains a pipe. -/
def BufOk (buf : List Char) : Prop := buf = [] ∨ hasPipe buf = true

/-- The last emitted row, when there is one, is a separator or ends with a
pipe. -/
def LastOk (rows : List (List Char)) : Prop :=
  ∀ r, rows.getLast? = some r → (looksLikeSeparator r = true ∨ endsWithPipe r = true)

/-- The invariant of the merging loop state. -/
def StInv (st : List (List Char) × List Char) : Prop :=
  (∀ r ∈ st.1, RowOk r) ∧ List.Chain' RowLink st.1 ∧ LastOk st.1 ∧ BufOk st.2

theorem hasPipe_append_left (s t : List Char) (h : hasPipe s = true) :
    hasPipe (s ++ t) = true := by
  unfold hasPipe at h ⊢
  exact decide_eq_true (List.mem_append_left t (of_decide_eq_true h))

theorem hasPipe_append_space (s : List Char) : hasPipe (s ++ [' ']) = hasPipe s := by
  unfold hasPipe
  rw [decide_eq_decide]
  constructor
  · intro h
    rcases List.mem_append.mp h with h | h
    · exact h
    · rw [List.mem_singleton] at h
      exact absurd h (by decide)
  · exact fun h => List.mem_append_left _ h

theorem hasPipe_of_sep (v : List Char) (h : looksLikeSeparator v = true) :
    hasPipe v = true := by
  unfold looksLikeSeparator at h
  rw [Bool.and_eq_true] at h
  exact h.1

theorem chain'_snoc_link (rows : List (List Char)) (x : List Char)
    (hchain : List.Chain' RowLink rows)
    (hlink : ∀ a, rows.getLast? = some a → RowLink a x) :
    List.Chain' RowLink (rows ++ [x]) := by
  rw [List.chain'_append]
  refine ⟨hchain, List.chain'_singleton x, ?_⟩
  intro a ha b hb
  rw [Option.mem_def, List.head?_cons, Option.some.injEq] at hb
  rw [Option.mem_def] at ha
  rw [← hb]
  exact hlink a ha

theorem lastOk_rowlink (rows : List (List Char)) (hlast : LastOk rows)
    (x : List Char) (a : List Char) (ha : rows.getLast? = some a) : RowLink a x := by
  intro hnsep hnend
  rcases hlast a ha with h | h
  · rw [hnsep] at h
    cases h
  · rw [hnend] at h
    cases h

theorem pushRow_noflush (st : List (List Char) × List Char)
    (h : trimStr st.2 = []) : pushRow st = st := by
  unfold pushRow
  rw [if_pos h]

theorem pushRow_rows_prefix (st : List (List Char) × List Char) :
    ∃ ext, (pushRow st).1 = st.1 ++ ext := by
  by_cases h : trimStr st.2 = []
  · rw [pushRow_noflush st h]
    exact ⟨[], by simp⟩
  · unfold pushRow
    rw [if_neg h]
    exact ⟨[trimStr st.2], rfl⟩

/-- One merging step preserves the state invariant provided the incoming
line is blank, contains a pipe, or is a separator. -/
theorem mergeStep_inv (st : List (List Char) × List Char) (raw : List Char)
    (hraw : trimStr raw = [] ∨ hasPipe raw = true ∨ looksLikeSeparator raw = true)
    (hst : StInv st) : StInv (mergeStep st raw) := by
  obtain ⟨hrows, hchain, hlast, hbuf⟩ := hst
  by_cases hblank : trimStr raw = []
  · rw [mergeStep_blank st raw hblank]
    by_cases hb : st.2 = []
    · rw [if_neg (fun h => h hb)]
      exact ⟨hrows, hchain, hlast, hbuf⟩
    · rw [if_pos hb]
      refine ⟨hrows, hchain, hlast, Or.inr ?_⟩
      rcases hbuf with h | h
      · exact absurd h hb
      · rw [hasPipe_append_space]
        exact h
  · by_cases hsep : looksLikeSeparator raw = true
    · rw [mergeStep_sep st raw hblank hsep]
      have hRraw : RowOk (trimStr raw) := by
        refine ⟨trimStr_idem raw, hblank, ?_⟩
        rw [hasPipe_trimStr]
        exact hasPipe_of_sep raw hsep
      have hsepTrim : looksLikeSeparator (trimStr raw) = true := by
        rw [looksLikeSeparator_trimStr]
        exact hsep
      by_cases htb : trimStr st.2 = []
      · rw [pushRow_noflush st htb]
        refine ⟨?_, ?_, ?_, hbuf⟩
        · intro r hr
          rcases List.mem_append.mp hr with h | h
          · exact hrows r h
          · rw [List.mem_singleton] at h
            rw [h]
            exact hRraw
        · exact chain'_snoc_link st.1 _ hchain (lastOk_rowlink st.1 hlast _)
        · intro r hr
          rw [List.getLast?_concat, Option.some.injEq] at hr
          rw [← hr]
          exact Or.inl hsepTrim
      · unfold pushRow
        rw [if_neg htb]
        have hRbuf : RowOk (trimStr st.2) := by
          refine ⟨trimStr_idem st.2, htb, ?_⟩
          rw [hasPipe_trimStr]
          rcases hbuf with h | h
          · rw [h] at htb
            exact absurd trimStr_nil htb
          · exact h
        refine ⟨?_, ?_, ?_, Or.inl rfl⟩
        · intro r hr
          rw [List.append_assoc, List.mem_append] at hr
          rcases hr with h | h
          · exact hrows r h
          · rcases List.mem_append.mp h with h | h <;> rw [List.mem_singleton] at h <;>
              rw [h]
            · exact hRbuf
            · exact hRraw
        · refine chain'_snoc_link _ _
            (chain'_snoc_link st.1 _ hchain (lastOk_rowlink st.1 hlast _)) ?_
          intro a ha
          rw [List.getLast?_concat, Option.some.injEq] at ha
          intro _ _
          exact hsepTrim
        · intro r hr
          rw [List.append_assoc] at hr
          rw [List.getLast?_append_of_ne_nil (st.1) (by simp)] at hr
          rw [List.getLast?_concat, Option.some.injEq] at hr
          rw [← hr]
          exact Or.inl hsepTrim
    · have hsep' : looksLikeSeparator raw = false := Bool.eq_false_iff.mpr hsep
      have hrawPipe : hasPipe raw = true := by
        rcases hraw with h | h | h
        · exact absurd h hblank
        · exact h
        · exact absurd h hsep
      by_cases hb : st.2 = []
      · rw [mergeStep_newRow st raw hblank hsep' hb]
        exact ⟨hrows, hchain, hlast, Or.inr hrawPipe⟩
      · by_cases hcond :
          (hasPipe raw && hasPipe st.2 && endsWithPipe (trimStr st.2)) = true
        · rw [mergeStep_complete st raw hblank hsep' hb hcond]
          rw [Bool.and_eq_true, Bool.and_eq_true] at hcond
          obtain ⟨⟨-, hbp⟩, hend⟩ := hcond
          have htb : trimStr st.2 ≠ [] := trimStr_ne_nil_of_pipe st.2 hbp
          unfold pushRow
          rw [if_neg htb]
          have hRbuf : RowOk (trimStr st.2) := by
            refine ⟨trimStr_idem st.2, htb, ?_⟩
            rw [hasPipe_trimStr]
            exact hbp
          refine ⟨?_, ?_, ?_, Or.inr hrawPipe⟩
          · intro r hr
            rcases List.mem_append.mp hr with h | h
            · exact hrows r h
            · rw [List.mem_singleton] at h
              rw [h]
              exact hRbuf
          · exact chain'_snoc_link st.1 _ hchain (lastOk_rowlink st.1 hlast _)
          · intro r hr
            rw [List.getLast?_concat, Option.some.injEq] at hr
            rw [← hr]
            exact Or.inr hend
        · have hcond' := Bool.eq_false_iff.mpr hcond
          rw [mergeStep_extend st raw hblank hsep' hb hcond']
          refine ⟨hrows, hchain, hlast, Or.inr ?_⟩
          rcases hbuf with h | h
          · exact absurd h hb
          · exact hasPipe_append_left _ _ h

/-- The merging fold preserves the state invariant over blank, piped or
separator lines. -/
theorem merge_fold_inv : ∀ (b : List (List Char)) (st : List (List Char) × List Char),
    (∀ x ∈ b, trimStr x = [] ∨ hasPipe x = true ∨ looksLikeSeparator x = true) →
    StInv st → StInv (b.foldl mergeStep st) := by
  intro b
  induction b with
  | nil => exact fun st _ h => h
  | cons x xs ih =>
    intro st hall hst
    rw [List.foldl_cons]
    exact ih _ (fun y hy => hall y (List.mem_cons_of_mem _ hy))
      (mergeStep_inv st x (hall x (List.mem_cons_self _ _)) hst)

/-- Folding the merging step over blank lines keeps the rows and only pads
the buffer with spaces. -/
theorem merge_fold_blanks : ∀ (pre : List (List Char)) (rows : List (List Char))
    (buf : List Char), (∀ p ∈ pre, trimStr p = []) →
    ∃ buf2, pre.foldl mergeStep (rows, buf) = (rows, buf2) ∧
      trimStr buf2 = trimStr buf ∧ hasPipe buf2 = hasPipe buf ∧
      (buf = [] → buf2 = []) := by
  intro pre
  induction pre with
  | nil => exact fun rows buf _ => ⟨buf, rfl, rfl, rfl, fun h => h⟩
  | cons p pre ih =>
    intro rows buf hall
    have hp : trimStr p = [] := hall p (List.mem_cons_self _ _)
    have hrest : ∀ q ∈ pre, trimStr q = [] := fun q hq => hall q (List.mem_cons_of_mem _ hq)
    rw [List.foldl_cons, mergeStep_blank (rows, buf) p hp]
    by_cases hb : buf = []
    · rw [if_neg (fun h => h hb)]
      exact ih rows buf hrest
    · rw [if_pos hb]
      obtain ⟨buf2, hfold, htr, hpipe, -⟩ := ih rows (buf ++ [' ']) hrest
      refine ⟨buf2, hfold, ?_, ?_, fun h => absurd h hb⟩
      · rw [htr]
        exact trimStr_append_spaces buf [' '] (by intro c hc; rw [List.mem_singleton] at hc; rw [hc]; rfl)
      · rw [hpipe, hasPipe_append_space]

theorem mergeStep_rows_prefix (st : List (List Char) × List Char) (raw : List Char) :
    ∃ ext, (mergeStep st raw).1 = st.1 ++ ext := by
  obtain ⟨e, he⟩ := pushRow_rows_prefix st
  by_cases hblank : trimStr raw = []
  · rw [mergeStep_blank st raw hblank]
    by_cases hb : st.2 ≠ []
    · rw [if_pos hb]
      exact ⟨[], by simp⟩
    · rw [if_neg hb]
      exact ⟨[], by simp⟩
  · by_cases hsep : looksLikeSeparator raw = true
    · rw [mergeStep_sep st raw hblank hsep]
      exact ⟨e ++ [trimStr raw], by rw [← List.append_assoc, ← he]⟩
    · have hsep' := Bool.eq_false_iff.mpr hsep
      by_cases hb : st.2 = []
      · rw [mergeStep_newRow st raw hblank hsep' hb]
        exact ⟨[], by simp⟩
      · by_cases hcond :
          (hasPipe raw && hasPipe st.2 && endsWithPipe (trimStr st.2)) = true
        · rw [mergeStep_complete st raw hblank hsep' hb hcond]
          exact ⟨e, he⟩
        · rw [mergeStep_extend st raw hblank hsep' hb (Bool.eq_false_iff.mpr hcond)]
          exact ⟨[], by simp⟩

theorem merge_fold_rows_prefix : ∀ (b : List (List Char))
    (st : List (List Char) × List Char),
    ∃ ext, (b.foldl mergeStep st).1 = st.1 ++ ext := by
  intro b
  induction b with
  | nil => exact fun st => ⟨[], by simp⟩
  | cons x xs ih =>
    intro st
    rw [List.foldl_cons]
    obtain ⟨e1, he1⟩ := mergeStep_rows_prefix st x
    obtain ⟨e2, he2⟩ := ih (mergeStep st x)
    exact ⟨e1 ++ e2, by rw [he2, he1, List.append_assoc]⟩

/-- Flushing the final buffer of an invariant-respecting state yields a
well-formed block. -/
theorem pushRow_good (st : List (List Char) × List Char) (hst : StInv st) :
    GoodRows ((pushRow st).1) := by
  obtain ⟨hrows, hchain, hlast, hbuf⟩ := hst
  by_cases htb : trimStr st.2 = []
  · rw [pushRow_noflush st htb]
    exact ⟨hrows, hchain⟩
  · unfold pushRow
    rw [if_neg htb]
    have hRbuf : RowOk (trimStr st.2) := by
      refine ⟨trimStr_idem st.2, htb, ?_⟩
      rw [hasPipe_trimStr]
      rcases hbuf with h | h
      · rw [h] at htb
        exact absurd trimStr_nil htb
      · exact h
    refine ⟨?_, chain'_snoc_link st.1 _ hchain (lastOk_rowlink st.1 hlast _)⟩
    intro r hr
    rcases List.mem_append.mp hr with h | h
    · exact hrows r h
    · rw [List.mem_singleton] at h
      rw [h]
      exact hRbuf

/-- Merging from the state holding the header and separator rows produces a
well-formed block extending them. -/
theorem merge_tail_shape (r0 r1 : List Char) (b : List (List Char))
    (h0 : RowOk r0) (h1 : RowOk r1) (hs1 : looksLikeSeparator r1 = true)
    (hb : ∀ x ∈ b, trimStr x = [] ∨ hasPipe x = true ∨ looksLikeSeparator x = true) :
    ∃ ext, (pushRow (b.foldl mergeStep ([r0, r1], []))).1 = r0 :: r1 :: ext ∧
      GoodRows (r0 :: r1 :: ext) := by
  have hinv : StInv ([r0, r1], []) := by
    refine ⟨?_, ?_, ?_, Or.inl rfl⟩
    · intro r hr
      rcases List.mem_cons.mp hr with h | h
      · rw [h]; exact h0
      · rw [List.mem_singleton] at h
        rw [h]; exact h1
    · rw [List.chain'_cons]
      exact ⟨fun _ _ => hs1, List.chain'_singleton r1⟩
    · intro r hr
      simp only [List.getLast?, Option.some.injEq] at hr
      rw [← hr]
      exact Or.inl hs1
  have hinv2 := merge_fold_inv b _ hb hinv
  obtain ⟨e0, he0⟩ := merge_fold_rows_prefix b ([r0, r1], [])
  obtain ⟨e1, he1⟩ := pushRow_rows_prefix (b.foldl mergeStep ([r0, r1], []))
  have hshape : (pushRow (b.foldl mergeStep ([r0, r1], []))).1 = r0 :: r1 :: (e0 ++ e1) := by
    rw [he1, he0]
    simp
  refine ⟨e0 ++ e1, hshape, ?_⟩
  have hg := pushRow_good _ hinv2
  rw [hshape] at hg
  exact hg

/-- The full shape of one merged table block: a table-start line, some blank
lines, the separator, and the collected tail merge into a well-formed block
headed by the trimmed start line and the trimmed separator. -/
theorem mergeBlock_shape (line s : List Char) (pre b : List (List Char))
    (hline : hasPipe (trimStr line) = true)
    (hpre : ∀ p ∈ pre, trimStr p = []) (hsep : looksLikeSeparator s = true)
    (hb : ∀ x ∈ b, trimStr x = [] ∨ hasPipe x = true ∨ looksLikeSeparator x = true) :
    ∃ ext, mergeBlock (line :: (pre ++ s :: b)) = trimStr line :: trimStr s :: ext ∧
      GoodRows (trimStr line :: trimStr s :: ext) := by
  have hlp : hasPipe line = true := by rw [← hasPipe_trimStr]; exact hline
  have hlne : trimStr line ≠ [] := trimStr_ne_nil_of_pipe line hlp
  have hsp : hasPipe s = true := hasPipe_of_sep s hsep
  have hsne : trimStr s ≠ [] := trimStr_ne_nil_of_pipe s hsp
  have hR0 : RowOk (trimStr line) := ⟨trimStr_idem line, hlne, by
    rw [hasPipe_trimStr]; exact hlp⟩
  have hR1 : RowOk (trimStr s) := ⟨trimStr_idem s, hsne, by
    rw [hasPipe_trimStr]; exact hsp⟩
  have hs1 : looksLikeSeparator (trimStr s) = true := by
    rw [looksLikeSeparator_trimStr]; exact hsep
  obtain ⟨ext, hext, hgood⟩ := merge_tail_shape (trimStr line) (trimStr s) b hR0 hR1 hs1 hb
  refine ⟨ext, ?_, hgood⟩
  unfold mergeBlock
  dsimp only
  rw [List.foldl_cons, List.foldl_append, List.foldl_cons]
  have hmid : mergeStep (pre.foldl mergeStep (mergeStep ([], []) line)) s
      = ([trimStr line, trimStr s], []) := by
    by_cases hls : looksLikeSeparator line = true
    · have h1 : mergeStep ([], []) line = ([trimStr line], []) := by
        rw [mergeStep_sep ([], []) line hlne hls, pushRow_empty]
        rfl
      obtain ⟨buf2, hfold, -, -, hnil2⟩ := merge_fold_blanks pre [trimStr line] [] hpre
      rw [h1, hfold, hnil2 rfl]
      rw [mergeStep_sep ([trimStr line], []) s hsne hsep, pushRow_empty]
      rfl
    · have hls' : looksLikeSeparator line = false := Bool.eq_false_iff.mpr hls
      have h1 : mergeStep ([], []) line = ([], line) :=
        mergeStep_newRow ([], []) line hlne hls' rfl
      obtain ⟨buf2, hfold, htr2, -, -⟩ := merge_fold_blanks pre [] line hpre
      rw [h1, hfold]
      rw [mergeStep_sep ([], buf2) s hsne hsep]
      rw [pushRow_flush [] buf2 (by rw [htr2]; exact hlne), htr2]
      rfl
  rw [hmid]
  exact hext

/-! Decomposition of the table-block collection. -/

theorem firstNonBlank_decomp : ∀ (ls : List (List Char)) (s : List Char),
    firstNonBlank ls = some s →
    ∃ pre rest', ls = pre ++ s :: rest' ∧ (∀ p ∈ pre, trimStr p = []) := by
  intro ls
  induction ls with
  | nil =>
    intro s h
    rw [firstNonBlank] at h
    cases h
  | cons l rest ih =>
    intro s h
    rw [firstNonBlank] at h
    by_cases hb : trimStr l = []
    · rw [if_pos hb] at h
      obtain ⟨pre, rest', hdec, hpre⟩ := ih s h
      refine ⟨l :: pre, rest', by rw [hdec]; rfl, ?_⟩
      intro p hp
      rcases List.mem_cons.mp hp with hp | hp
      · rw [hp]; exact hb
      · exact hpre p hp
    · rw [if_neg hb, Option.some.injEq] at h
      exact ⟨[], rest, by rw [h]; rfl, fun p hp => absurd hp (List.not_mem_nil p)⟩

theorem takeTable_blanks : ∀ (pre : List (List Char)),
    (∀ p ∈ pre, trimStr p = []) → ∀ (hs : Bool) (ls : List (List Char)),
    takeTable hs (pre ++ ls) = (pre ++ (takeTable hs ls).1, (takeTable hs ls).2) := by
  intro pre
  induction pre with
  | nil => intro _ hs ls; simp
  | cons p pre ih =>
    intro hall hs ls
    have hp : trimStr p = [] := hall p (List.mem_cons_self _ _)
    rw [List.cons_append, takeTable, if_pos hp]
    dsimp only
    rw [ih (fun q hq => hall q (List.mem_cons_of_mem _ hq)) hs ls]
    rfl

/-- Collecting a table from its start line: the blank prefix and the
separator are collected and collection continues with the separator flag
set. -/
theorem takeTable_start (line s : List Char) (pre rest' : List (List Char))
    (hlp : hasPipe line = true) (hpre : ∀ p ∈ pre, trimStr p = [])
    (hsep : looksLikeSeparator s = true) :
    takeTable false (line :: (pre ++ s :: rest'))
      = (line :: (pre ++ s :: (takeTable true rest').1), (takeTable true rest').2) := by
  have hlne : trimStr line ≠ [] := trimStr_ne_nil_of_pipe line hlp
  have hsp : hasPipe s = true := hasPipe_of_sep s hsep
  have hsne : trimStr s ≠ [] := trimStr_ne_nil_of_pipe s hsp
  have hstep : ∀ hs1 : Bool, takeTable hs1 (s :: rest')
      = (s :: (takeTable true rest').1, (takeTable true rest').2) := by
    intro hs1
    rw [takeTable, if_neg hsne]
    have hbreak : (!hasPipe s && !looksLikeSeparator s && hs1) = false := by
      rw [hsp]
      rfl
    rw [hbreak, hsep]
    simp
  rw [takeTable_false_cons line (pre ++ s :: rest') hlne]
  rw [takeTable_blanks pre hpre (looksLikeSeparator line) (s :: rest')]
  rw [hstep (looksLikeSeparator line)]

/-- Every line collected with the separator flag set is blank, contains a
pipe, or is a separator. -/
theorem takeTable_members : ∀ (ls : List (List Char)) (x : List Char),
    x ∈ (takeTable true ls).1 →
    trimStr x = [] ∨ hasPipe x = true ∨ looksLikeSeparator x = true := by
  intro ls
  induction ls with
  | nil =>
    intro x hx
    cases hx
  | cons current rest ih =>
    intro x hx
    rw [takeTable] at hx
    by_cases hblank : trimStr current = []
    · rw [if_pos hblank] at hx
      dsimp only at hx
      rcases List.mem_cons.mp hx with h | h
      · rw [h]; exact Or.inl hblank
      · exact ih x h
    · rw [if_neg hblank] at hx
      by_cases hp : hasPipe current = true
      · have hbreak : (!hasPipe current && !looksLikeSeparator current && true) = false := by
          rw [hp]
          rfl
        rw [hbreak] at hx
        rw [if_neg (by exact fun h => absurd h (by decide))] at hx
        dsimp only at hx
        rcases List.mem_cons.mp hx with h | h
        · rw [h]; exact Or.inr (Or.inl hp)
        · rw [show (true || looksLikeSeparator current) = true from rfl] at h
          exact ih x h
      · by_cases hsp : looksLikeSeparator current = true
        · have hbreak : (!hasPipe current && !looksLikeSeparator current && true) = false := by
            rw [hsp]
            simp
          rw [hbreak] at hx
          rw [if_neg (by exact fun h => absurd h (by decide))] at hx
          dsimp only at hx
          rcases List.mem_cons.mp hx with h | h
          · rw [h]; exact Or.inr (Or.inr hsp)
          · rw [show (true || looksLikeSeparator current) = true from rfl] at h
            exact ih x h
        · have hbreak : (!hasPipe current && !looksLikeSeparator current && true) = true := by
            rw [(Bool.eq_false_iff.mpr hp : hasPipe current = false),
              (Bool.eq_false_iff.mpr hsp : looksLikeSeparator current = false)]
            rfl
          rw [hbreak, if_pos rfl] at hx
          cases hx

/-- The inner lookahead of isTableStart in isolation. -/
def sepAfterBlanks (ls : List (List Char)) : Bool :=
  match firstNonBlank ls with
  | some l => looksLikeSeparator l
  | none => false

theorem sepAfterBlanks_cons (l : List Char) (ls : List (List Char)) :
    sepAfterBlanks (l :: ls) =
      if trimStr l = [] then sepAfterBlanks ls else looksLikeSeparator l := by
  unfold sepAfterBlanks
  rw [firstNonBlank]
  by_cases h : trimStr l = []
  · rw [if_pos h, if_pos h]
  · rw [if_neg h, if_neg h]

theorem isTableStart_eq (line : List Char) (rest : List (List Char)) :
    isTableStart line rest = (hasPipe (trimStr line) && sepAfterBlanks rest) := rfl

theorem isTableStart_elim (line : List Char) (rest : List (List Char))
    (h : isTableStart line rest = true) :
    hasPipe (trimStr line) = true ∧ ∃ s0, firstNonBlank rest = some s0 ∧
      looksLikeSeparator s0 = true := by
  unfold isTableStart at h
  rw [Bool.and_eq_true] at h
  obtain ⟨h1, h2⟩ := h
  refine ⟨h1, ?_⟩
  cases hfnb : firstNonBlank rest with
  | none =>
    rw [hfnb] at h2
    cases h2
  | some s0 =>
    rw [hfnb] at h2
    exact ⟨s0, rfl, h2⟩

theorem processLines_nil : processLines [] = [] := rfl

/-- The lookahead that decides a table start is unchanged by the scanner. -/
theorem sepAfterBlanks_processLinesAux : ∀ (n : ℕ) (ls : List (List Char)),
    ls.length ≤ n → sepAfterBlanks (processLines ls) = sepAfterBlanks ls := by
  intro n
  induction n with
  | zero =>
    intro ls h0
    have hnil : ls = [] := List.eq_nil_of_length_eq_zero (Nat.le_zero.mp h0)
    subst hnil
    rfl
  | succ n ih =>
    intro ls hn
    cases ls with
    | nil => rfl
    | cons line rest =>
      by_cases hts : isTableStart line rest = true
      · obtain ⟨hlp, s0, hfnb, hs0⟩ := isTableStart_elim line rest hts
        obtain ⟨pre, rest', hdecomp, hpre⟩ := firstNonBlank_decomp rest s0 hfnb
        have hlp' : hasPipe line = true := by rw [← hasPipe_trimStr]; exact hlp
        have hlne : trimStr line ≠ [] := trimStr_ne_nil_of_pipe line hlp'
        rw [processLines_cons_block line rest hts]
        have htt : takeTable false (line :: rest)
            = (line :: (pre ++ s0 :: (takeTable true rest').1),
              (takeTable true rest').2) := by
          rw [hdecomp]
          exact takeTable_start line s0 pre rest' hlp' hpre hs0
        rw [htt]
        dsimp only
        obtain ⟨ext, hmb, -⟩ := mergeBlock_shape line s0 pre (takeTable true rest').1
          hlp hpre hs0 (takeTable_members rest')
        rw [hmb]
        rw [List.cons_append]
        rw [sepAfterBlanks_cons]
        rw [if_neg (by rw [trimStr_idem]; exact hlne)]
        rw [looksLikeSeparator_trimStr]
        rw [sepAfterBlanks_cons, if_neg hlne]
      · have hts' : isTableStart line rest = false := Bool.eq_false_iff.mpr hts
        rw [processLines_cons_inert line rest hts']
        rw [sepAfterBlanks_cons, sepAfterBlanks_cons]
        by_cases hb : trimStr line = []
        · rw [if_pos hb, if_pos hb]
          refine ih rest ?_
          simp only [List.length_cons] at hn
          omega
        · rw [if_neg hb, if_neg hb]

theorem sepAfterBlanks_processLines (ls : List (List Char)) :
    sepAfterBlanks (processLines ls) = sepAfterBlanks ls :=
  sepAfterBlanks_processLinesAux ls.length ls (Nat.le_refl _)

/-- The shape of a scanner output: a sequence of inert lines and merged
blocks, where each block is well formed, headed by a row and a separator,
and followed by nothing or by a line that stops collection. -/
inductive NormOut : List (List Char) → Prop
  | nil : NormOut []
  | inert (line : List Char) (rest : List (List Char)) :
      isTableStart line rest = false → NormOut rest → NormOut (line :: rest)
  | block (r0 r1 : List Char) (more rest : List (List Char)) :
      GoodRows (r0 :: r1 :: more) → looksLikeSeparator r1 = true →
      (rest = [] ∨ ∃ t ts, rest = t :: ts ∧ trimStr t ≠ [] ∧ hasPipe t = false ∧
        looksLikeSeparator t = false) →
      NormOut rest → NormOut ((r0 :: r1 :: more) ++ rest)

/-- Collection over finished rows stops exactly at the block boundary. -/
theorem takeTable_rows : ∀ (rows : List (List Char)) (hs : Bool),
    (∀ r ∈ rows, trimStr r ≠ [] ∧ hasPipe r = true) →
    ∀ (rest : List (List Char)),
    (rest = [] ∨ ∃ t ts, rest = t :: ts ∧ trimStr t ≠ [] ∧ hasPipe t = false ∧
      looksLikeSeparator t = false) →
    (hs = true ∨ ∃ r ∈ rows, looksLikeSeparator r = true) →
    takeTable hs (rows ++ rest) = (rows, rest) := by
  intro rows
  induction rows with
  | nil =>
    intro hs _ rest hrest hsep
    have hs1 : hs = true := by
      rcases hsep with h | ⟨r, hr, -⟩
      · exact h
      · cases hr
    subst hs1
    rcases hrest with rfl | ⟨t, ts, rfl, h1, h2, h3⟩
    · rfl
    · rw [List.nil_append, takeTable, if_neg h1]
      have hbreak : (!hasPipe t && !looksLikeSeparator t && true) = true := by
        rw [h2, h3]
        rfl
      rw [hbreak, if_pos rfl]
  | cons r rows ih =>
    intro hs hrows rest hrest hsep
    obtain ⟨hrne, hrp⟩ := hrows r (List.mem_cons_self _ _)
    rw [List.cons_append, takeTable, if_neg hrne]
    have hbreak : (!hasPipe r && !looksLikeSeparator r && hs) = false := by
      rw [hrp]
      rfl
    rw [hbreak]
    rw [if_neg (by exact fun h => absurd h (by decide))]
    dsimp only
    have hsep2 : (hs || looksLikeSeparator r) = true ∨
        ∃ r2 ∈ rows, looksLikeSeparator r2 = true := by
      rcases hsep with h | ⟨r2, hr2, hsr2⟩
      · rw [h]
        exact Or.inl rfl
      · rcases List.mem_cons.mp hr2 with h | h
        · refine Or.inl ?_
          rw [h] at hsr2
          rw [hsr2, Bool.or_true]
        · exact Or.inr ⟨r2, h, hsr2⟩
    rw [ih (hs || looksLikeSeparator r) (fun x hx => hrows x (List.mem_cons_of_mem _ hx))
      rest hrest hsep2]

/-- A scanner output is a fixed point of the scanner. -/
theorem normOut_fixed : ∀ (out : List (List Char)), NormOut out →
    processLines out = out := by
  intro out h
  induction h with
  | nil => rfl
  | inert line rest hts _ ih =>
    rw [processLines_cons_inert line rest hts, ih]
  | block r0 r1 more rest hgood hs1 hrest _ ih =>
    obtain ⟨htr0, hne0, hp0⟩ := hgood.1 r0 (List.mem_cons_self _ _)
    obtain ⟨htr1, hne1, hp1⟩ := hgood.1 r1 (List.mem_cons_of_mem _ (List.mem_cons_self _ _))
    have htrne0 : trimStr r0 ≠ [] := by rw [htr0]; exact hne0
    have htrne1 : trimStr r1 ≠ [] := by rw [htr1]; exact hne1
    have hts : isTableStart r0 (r1 :: (more ++ rest)) = true := by
      rw [isTableStart_eq, htr0, hp0]
      rw [sepAfterBlanks_cons, if_neg htrne1, hs1]
      rfl
    have htt : takeTable false ((r0 :: r1 :: more) ++ rest) = (r0 :: r1 :: more, rest) := by
      refine takeTable_rows (r0 :: r1 :: more) false ?_ rest hrest
        (Or.inr ⟨r1, by simp, hs1⟩)
      intro x hx
      obtain ⟨ht, hn, hp⟩ := hgood.1 x hx
      exact ⟨by rw [ht]; exact hn, hp⟩
    have hgoal := processLines_cons_block r0 (r1 :: (more ++ rest)) hts
    simp only [List.cons_append] at htt hgoal ⊢
    rw [hgoal, htt]
    dsimp only
    rw [mergeBlock_good _ hgood, ih]
    rfl

/-- The scanner never turns a non-empty line list into an empty one. -/
theorem processLines_ne_nil (line : List Char) (rest : List (List Char)) :
    processLines (line :: rest) ≠ [] := by
  by_cases hts : isTableStart line rest = true
  · obtain ⟨hlp, s0, hfnb, hs0⟩ := isTableStart_elim line rest hts
    obtain ⟨pre, rest', hdecomp, hpre⟩ := firstNonBlank_decomp rest s0 hfnb
    have hlp' : hasPipe line = true := by rw [← hasPipe_trimStr]; exact hlp
    rw [processLines_cons_block line rest hts]
    have htt : takeTable false (line :: rest)
        = (line :: (pre ++ s0 :: (takeTable true rest').1), (takeTable true rest').2) := by
      rw [hdecomp]
      exact takeTable_start line s0 pre rest' hlp' hpre hs0
    rw [htt]
    dsimp only
    obtain ⟨ext, hmb, -⟩ := mergeBlock_shape line s0 pre (takeTable true rest').1
      hlp hpre hs0 (takeTable_members rest')
    rw [hmb]
    simp
  · rw [processLines_cons_inert line rest (Bool.eq_false_iff.mpr hts)]
    exact List.cons_ne_nil _ _

/-- Every scanner output has the fixed-point shape. -/
theorem normOut_processLinesAux : ∀ (n : ℕ) (ls : List (List Char)),
    ls.length ≤ n → NormOut (processLines ls) := by
  intro n
  induction n with
  | zero =>
    intro ls h0
    have hnil : ls = [] := List.eq_nil_of_length_eq_zero (Nat.le_zero.mp h0)
    subst hnil
    exact NormOut.nil
  | succ n ih =>
    intro ls hn
    cases ls with
    | nil => exact NormOut.nil
    | cons line rest =>
      simp only [List.length_cons] at hn
      by_cases hts : isTableStart line rest = true
      · obtain ⟨hlp, s0, hfnb, hs0⟩ := isTableStart_elim line rest hts
        obtain ⟨pre, rest', hdecomp, hpre⟩ := firstNonBlank_decomp rest s0 hfnb
        have hlp' : hasPipe line = true := by rw [← hasPipe_trimStr]; exact hlp
        rw [processLines_cons_block line rest hts]
        have htt : takeTable false (line :: rest)
            = (line :: (pre ++ s0 :: (takeTable true rest').1),
              (takeTable true rest').2) := by
          rw [hdecomp]
          exact takeTable_start line s0 pre rest' hlp' hpre hs0
        rw [htt]
        dsimp only
        obtain ⟨ext, hmb, hgood⟩ := mergeBlock_shape line s0 pre (takeTable true rest').1
          hlp hpre hs0 (takeTable_members rest')
        rw [hmb]
        have hlen2 : (takeTable true rest').2.length ≤ n := by
          have h1 := takeTable_len true rest'
          have h2 : rest'.length ≤ rest.length := by
            rw [hdecomp, List.length_append, List.length_cons]
            omega
          omega
        refine NormOut.block (trimStr line) (trimStr s0) ext _ hgood
          (by rw [looksLikeSeparator_trimStr]; exact hs0) ?_ (ih _ hlen2)
        rcases takeTable_after_shape true rest' with hc | ⟨t, ts, hc, h1, h2, h3⟩
        · rw [hc]
          exact Or.inl processLines_nil
        · rw [hc]
          have hts2 : isTableStart t ts = false := by
            rw [isTableStart_eq, hasPipe_trimStr, h2]
            rfl
          rw [processLines_cons_inert t ts hts2]
          exact Or.inr ⟨t, processLines ts, rfl, h1, h2, h3⟩
      · have hts' : isTableStart line rest = false := Bool.eq_false_iff.mpr hts
        rw [processLines_cons_inert line rest hts']
        refine NormOut.inert line (processLines rest) ?_ (ih rest (by omega))
        rw [isTableStart_eq, sepAfterBlanks_processLines, ← isTableStart_eq]
        exact hts'

theorem normOut_processLines (ls : List (List Char)) : NormOut (processLines ls) :=
  normOut_processLinesAux ls.length ls (Nat.le_refl _)

/-- The scanner is idempotent. -/
theorem processLines_idem (ls : List (List Char)) :
    processLines (processLines ls) = processLines ls :=
  normOut_fixed (processLines ls) (normOut_processLines ls)

/-! Character provenance through the normalizer. -/

theorem pushRow_chars (P : Char → Prop) (st : List (List Char) × List Char)
    (hrows : ∀ r ∈ st.1, ∀ c ∈ r, P c) (hbuf : ∀ c ∈ st.2, P c) :
    (∀ r ∈ (pushRow st).1, ∀ c ∈ r, P c) ∧ (∀ c ∈ (pushRow st).2, P c) := by
  by_cases h : trimStr st.2 = []
  · rw [pushRow_noflush st h]
    exact ⟨hrows, hbuf⟩
  · unfold pushRow
    rw [if_neg h]
    refine ⟨?_, fun c hc => absurd hc (List.not_mem_nil c)⟩
    intro r hr c hc
    rcases List.mem_append.mp hr with h2 | h2
    · exact hrows r h2 c hc
    · rw [List.mem_singleton] at h2
      rw [h2] at hc
      exact hbuf c (trimStr_subset st.2 c hc)

theorem mergeStep_chars (P : Char → Prop) (hP : P ' ')
    (st : List (List Char) × List Char) (raw : List Char)
    (hrows : ∀ r ∈ st.1, ∀ c ∈ r, P c) (hbuf : ∀ c ∈ st.2, P c)
    (hraw : ∀ c ∈ raw, P c) :
    (∀ r ∈ (mergeStep st raw).1, ∀ c ∈ r, P c) ∧
      (∀ c ∈ (mergeStep st raw).2, P c) := by
  have htraw : ∀ c ∈ trimStr raw, P c := fun c hc => hraw c (trimStr_subset raw c hc)
  obtain ⟨hprows, hpbuf⟩ := pushRow_chars P st hrows hbuf
  by_cases hblank : trimStr raw = []
  · rw [mergeStep_blank st raw hblank]
    by_cases hb : st.2 ≠ []
    · rw [if_pos hb]
      refine ⟨hrows, ?_⟩
      intro c hc
      rcases List.mem_append.mp hc with h | h
      · exact hbuf c h
      · rw [List.mem_singleton] at h
        rw [h]
        exact hP
    · rw [if_neg hb]
      exact ⟨hrows, hbuf⟩
  · by_cases hsep : looksLikeSeparator raw = true
    · rw [mergeStep_sep st raw hblank hsep]
      refine ⟨?_, hpbuf⟩
      intro r hr c hc
      rcases List.mem_append.mp hr with h | h
      · exact hprows r h c hc
      · rw [List.mem_singleton] at h
        rw [h] at hc
        exact htraw c hc
    · have hsep' := Bool.eq_false_iff.mpr hsep
      by_cases hb : st.2 = []
      · rw [mergeStep_newRow st raw hblank hsep' hb]
        exact ⟨hrows, hraw⟩
      · by_cases hcond :
          (hasPipe raw && hasPipe st.2 && endsWithPipe (trimStr st.2)) = true
        · rw [mergeStep_complete st raw hblank hsep' hb hcond]
          exact ⟨hprows, hraw⟩
        · rw [mergeStep_extend st raw hblank hsep' hb (Bool.eq_false_iff.mpr hcond)]
          refine ⟨hrows, ?_⟩
          intro c hc
          rcases List.mem_append.mp hc with h | h
          · exact hbuf c h
          · rcases List.mem_cons.mp h with h2 | h2
            · rw [h2]
              exact hP
            · exact htraw c h2

theorem merge_fold_chars (P : Char → Prop) (hP : P ' ') :
    ∀ (b : List (List Char)) (st : List (List Char) × List Char),
    (∀ x ∈ b, ∀ c ∈ x, P c) → (∀ r ∈ st.1, ∀ c ∈ r, P c) → (∀ c ∈ st.2, P c) →
    (∀ r ∈ (b.foldl mergeStep st).1, ∀ c ∈ r, P c) ∧
      (∀ c ∈ (b.foldl mergeStep st).2, P c) := by
  intro b
  induction b with
  | nil => exact fun st _ h1 h2 => ⟨h1, h2⟩
  | cons x xs ih =>
    intro st hall h1 h2
    rw [List.foldl_cons]
    obtain ⟨g1, g2⟩ := mergeStep_chars P hP st x h1 h2 (hall x (List.mem_cons_self _ _))
    exact ih _ (fun y hy => hall y (List.mem_cons_of_mem _ hy)) g1 g2

theorem mergeBlock_chars (P : Char → Prop) (hP : P ' ') (tl : List (List Char))
    (htl : ∀ x ∈ tl, ∀ c ∈ x, P c) : ∀ r ∈ mergeBlock tl, ∀ c ∈ r, P c := by
  unfold mergeBlock
  dsimp only
  obtain ⟨hrows, hbuf⟩ := merge_fold_chars P hP tl ([], []) htl
    (fun r hr => absurd hr (List.not_mem_nil r))
    (fun c hc => absurd hc (List.not_mem_nil c))
  exact (pushRow_chars P _ hrows hbuf).1

/-- Every character of a scanner output comes from some input line or is a
space. -/
theorem processLines_charsAux (P : Char → Prop) (hP : P ' ') :
    ∀ (n : ℕ) (ls : List (List Char)), ls.length ≤ n →
    (∀ l ∈ ls, ∀ c ∈ l, P c) → ∀ r ∈ processLines ls, ∀ c ∈ r, P c := by
  intro n
  induction n with
  | zero =>
    intro ls h0 _
    have hnil : ls = [] := List.eq_nil_of_length_eq_zero (Nat.le_zero.mp h0)
    subst hnil
    intro r hr
    cases hr
  | succ n ih =>
    intro ls hn hin
    cases ls with
    | nil => intro r hr; cases hr
    | cons line rest =>
      simp only [List.length_cons] at hn
      by_cases hts : isTableStart line rest = true
      · rw [processLines_cons_block line rest hts]
        have happ := takeTable_append false (line :: rest)
        have hmem1 : ∀ x ∈ (takeTable false (line :: rest)).1, ∀ c ∈ x, P c := by
          intro x hx
          exact hin x (by rw [← happ]; exact List.mem_append_left _ hx)
        have hmem2 : ∀ x ∈ (takeTable false (line :: rest)).2, ∀ c ∈ x, P c := by
          intro x hx
          exact hin x (by rw [← happ]; exact List.mem_append_right _ hx)
        have hstart := isTableStart_trim_ne line rest hts
        have hcons := takeTable_false_cons line rest hstart
        have hlen : ((takeTable false (line :: rest)).2).length ≤ rest.length := by
          rw [hcons]
          exact takeTable_len _ _
        intro r hr c hc
        rcases List.mem_append.mp hr with h | h
        · exact mergeBlock_chars P hP _ hmem1 r h c hc
        · exact ih _ (by omega) hmem2 r h c hc
      · rw [processLines_cons_inert line rest (Bool.eq_false_iff.mpr hts)]
        intro r hr c hc
        rcases List.mem_cons.mp hr with h | h
        · rw [h] at hc
          exact hin line (List.mem_cons_self _ _) c hc
        · exact ih rest (by omega) (fun l hl => hin l (List.mem_cons_of_mem _ hl)) r h c hc

theorem processLines_chars (P : Char → Prop) (hP : P ' ') (ls : List (List Char))
    (hin : ∀ l ∈ ls, ∀ c ∈ l, P c) : ∀ r ∈ processLines ls, ∀ c ∈ r, P c :=
  processLines_charsAux P hP ls.length ls (Nat.le_refl _) hin

theorem splitNl_mem_subset : ∀ s : List Char, ∀ l ∈ splitNl s, ∀ c ∈ l, c ∈ s
  | [] => by
    intro l hl c hc
    rw [List.mem_singleton.mp hl] at hc
    cases hc
  | c0 :: rest => by
    intro l hl c hc
    rw [splitNl.eq_def] at hl
    revert hl
    split
    · intro hl
      rw [List.mem_singleton.mp hl] at hc
      cases hc
    · rename_i heq
      obtain ⟨rfl, rfl⟩ := List.cons.inj heq
      intro hl
      rcases List.mem_cons.mp hl with hh | hh
      · rw [hh] at hc
        cases hc
      · exact List.mem_cons_of_mem _ (splitNl_mem_subset rest l hh c hc)
    · rename_i c2 rest2 hne hcons
      obtain ⟨h1, h2⟩ := List.cons.inj hcons
      subst h1
      subst h2
      split
      · rename_i seg segs hseg
        intro hl
        rcases List.mem_cons.mp hl with hh | hh
        · rw [hh] at hc
          rcases List.mem_cons.mp hc with hcc | hcc
          · rw [hcc]
            exact List.mem_cons_self _ _
          · have hmem2 : seg ∈ splitNl rest := by
              rw [hseg]
              exact List.mem_cons_self _ _
            exact List.mem_cons_of_mem _ (splitNl_mem_subset rest seg hmem2 c hcc)
        · have hmem2 : l ∈ splitNl rest := by
            rw [hseg]
            exact List.mem_cons_of_mem _ hh
          exact List.mem_cons_of_mem _ (splitNl_mem_subset rest l hmem2 c hc)
      · rename_i hseg
        exact absurd hseg (splitNl_ne_nil rest)

theorem intercalate_chars : ∀ (out : List (List Char)) (c : Char),
    c ∈ List.intercalate ['\n'] out → c = '\n' ∨ ∃ l ∈ out, c ∈ l
  | [], c, hc => by
    simp [List.intercalate] at hc
  | [x], c, hc => by
    rw [intercalate_singleton] at hc
    exact Or.inr ⟨x, List.mem_singleton.mpr rfl, hc⟩
  | x :: y :: rest, c, hc => by
    rw [intercalate_cons₂] at hc
    rcases List.mem_append.mp hc with h | h
    · rcases List.mem_append.mp h with h2 | h2
      · exact Or.inr ⟨x, List.mem_cons_self _ _, h2⟩
      · rw [List.mem_singleton] at h2
        exact Or.inl h2
    · rcases intercalate_chars (y :: rest) c h with h2 | ⟨l, hl, hcl⟩
      · exact Or.inl h2
      · exact Or.inr ⟨l, List.mem_cons_of_mem _ hl, hcl⟩

/-- The segment normalizer is idempotent: its output re-splits into exactly
the scanner output, which the scanner fixes. -/
theorem processSegment_idem (segment : List Char) :
    processSegment (processSegment segment) = processSegment segment := by
  unfold processSegment
  have hnn : ∀ l ∈ processLines (splitNl segment), '\n' ∉ l := by
    intro l hl hmem
    have hchars := processLines_chars (fun c => c ≠ '\n') (by decide) (splitNl segment)
      (fun l2 hl2 c hc2 => splitNl_no_nl_mem segment l2 hl2 ∘ fun he => he ▸ hc2)
    exact hchars l hl '\n' hmem rfl
  have hne : processLines (splitNl segment) ≠ [] := by
    cases hsplit : splitNl segment with
    | nil => exact absurd hsplit (splitNl_ne_nil segment)
    | cons a as =>
      exact processLines_ne_nil a as
  rw [splitNl_intercalate (processLines (splitNl segment)) hnn hne]
  rw [processLines_idem]

theorem intercalate_fence_singleton (x : List Char) :
    List.intercalate ("```".toList) [x] = x := by
  simp [List.intercalate]

/-- Characters of the normalized segment are characters of the input or
spaces; in particular a backtick-free segment stays backtick-free. -/
theorem processSegment_no_tick (segment : List Char) (h : '`' ∉ segment) :
    '`' ∉ processSegment segment := by
  intro htick
  unfold processSegment at htick
  rcases intercalate_chars _ '`' htick with hq | ⟨l, hl, hcl⟩
  · exact absurd hq (by decide)
  · have hchars := processLines_chars (fun c => c = ' ' ∨ c ∈ segment) (Or.inl rfl)
      (splitNl segment)
      (fun l2 hl2 c hc2 => Or.inr (splitNl_mem_subset segment l2 hl2 c hc2))
    rcases hchars l hl '`' hcl with hq | hq
    · exact absurd hq (by decide)
    · exact h hq

theorem normalize_no_tick_eq (t : List Char) (ht : '`' ∉ t) :
    normalizeMarkdownTables t = processSegment t := by
  unfold normalizeMarkdownTables
  rw [splitFence_no_tick t ht]
  have hmap : List.mapIdx
      (fun idx segment => if idx % 2 = 1 then segment else processSegment segment) [t]
      = [processSegment t] := rfl
  rw [hmap, intercalate_fence_singleton]

/-- C3 (amended): table normalization is idempotent on every input that
contains no backtick character (so no code-fence delimiter).  On such inputs
the normalizer is a single segment pass, its output re-splits into the
scanner output, and the scanner fixes its own output.  The unrestricted
claim fails: normalize_not_idempotent exhibits an input whose trailing
table row touches a code fence, where the first pass moves a backtick
against the fence delimiter and the second pass re-splits differently. -/
theorem normalize_idempotent_no_backtick (text : List Char) (h : '`' ∉ text) :
    normalizeMarkdownTables (normalizeMarkdownTables text)
      = normalizeMarkdownTables text := by
  rw [normalize_no_tick_eq text h,
    normalize_no_tick_eq (processSegment text) (processSegment_no_tick text h)]
  exact processSegment_idem text

/-- A concrete backtick-free table input for the amended C3 theorem. -/
def wC3 : List Char := "| a | b |\n\n| --- | --- |\n| c | d |".toList

theorem normalize_idempotent_no_backtick_witness :
    '`' ∉ wC3 ∧ normalizeMarkdownTables (normalizeMarkdownTables wC3)
      = normalizeMarkdownTables wC3 :=
  ⟨by decide, normalize_idempotent_no_backtick wC3 (by decide)⟩

end ElementCopier
